import Mathlib

/-!
# Job request validation and persistence (`node/api.go`)

A shallow embedding of `JobRequest.validate`, `JobRequest.checkTasksDependencyCircle`
and `JobRequest.save`, together with a model of the graph engine
(`github.com/cosmtrek/supergo/dag`) and of the transactional store they call.

Go maps are iterated in an unspecified order.  Every `range` over a map is therefore
modelled by an explicit iteration oracle (`MapOrder`): a function that returns the
entries of the map in some order.  Statements quantify over all such oracles.
-/

namespace OfficerK

/-! ## Strings -/

/-- The runes for which Go's `unicode.IsSpace` holds; `strings.TrimSpace` removes them. -/
def isSpace (c : Char) : Bool :=
  let n := c.toNat
  n = 0x09 || n = 0x0A || n = 0x0B || n = 0x0C || n = 0x0D || n = 0x20 ||
  n = 0x85 || n = 0xA0 || n = 0x1680 || (0x2000 ≤ n && n ≤ 0x200A) ||
  n = 0x2028 || n = 0x2029 || n = 0x202F || n = 0x205F || n = 0x3000

/-- The function `strings.TrimSpace` on a list of runes: leading and trailing white
space removed. -/
def trimSpaceChars (cs : List Char) : List Char :=
  ((cs.dropWhile isSpace).reverse.dropWhile isSpace).reverse

/-- The function `strings.TrimSpace`. -/
def trimSpace (s : String) : String :=
  String.mk (trimSpaceChars s.data)

/-- The function `strings.Split(s, ",")` on a list of runes: the pieces between commas,
one more piece than there are commas (so the empty input gives one empty piece). -/
def splitCommaChars : List Char → List (List Char)
  | [] => [[]]
  | c :: cs =>
    if c = ',' then [] :: splitCommaChars cs
    else
      match splitCommaChars cs with
      | [] => [[c]]
      | p :: ps => (c :: p) :: ps

/-- The function `strings.Split(s, ",")`. -/
def splitComma (s : String) : List String :=
  (splitCommaChars s.data).map String.mk

/-- The inner loop of `checkTasksDependencyCircle` (api.go lines 44-52): the successor
list `ntk` of a task, that is the trimmed, non-empty comma-separated pieces of its
`NextTasks`, in order. -/
def tokens (nextTasks : String) : List String :=
  ((splitComma nextTasks).map trimSpace).filter (fun s => s.length ≠ 0)

/-! ## Requests -/

/-- The struct `TaskRequest`. -/
structure TaskRequest where
  Name : String
  Command : String
  NextTasks : String
  deriving DecidableEq, Repr

/-- The struct `JobRequest`. -/
structure JobRequest where
  Name : String
  Schedule : String
  RoutePath : String
  Tasks : List TaskRequest
  deriving DecidableEq, Repr

/-! ## Go maps -/

/-- A Go `map[string]V`, kept as an association list with pairwise distinct keys. -/
abbrev GoMap (V : Type) := List (String × V)

/-- The assignment `m[k] = v`: overwrites the entry of `k` when there is one, adds a
new entry otherwise. -/
def GoMap.set {V : Type} : GoMap V → String → V → GoMap V
  | [], k, v => [(k, v)]
  | (k', v') :: rest, k, v =>
    if k' = k then (k, v) :: rest else (k', v') :: GoMap.set rest k v

/-- The lookup `_, ok := m[k]`. -/
def GoMap.has {V : Type} (m : GoMap V) (k : String) : Bool :=
  m.any (fun e => e.1 = k)

/-- An iteration oracle for `for k, v := range m`: the order in which the runtime
hands out the entries of a map. -/
abbrev MapOrder := GoMap (List String) → GoMap (List String)

/-- An iteration oracle is admissible when it hands out every entry exactly once. -/
def IsMapOrder (it : MapOrder) : Prop :=
  ∀ m, List.Perm (it m) m

/-! ## The graph engine -/

/-- Modelled from the spec: the error kinds of the graph engine
(`github.com/cosmtrek/supergo/dag`, not part of the sources); section 4.1 and
section 7 name them `InvalidCapacity`, `DuplicateVertex` and `CapacityExceeded`. -/
inductive DagError where
  | invalidCapacity
  | duplicateVertex (id : String)
  | capacityExceeded
  deriving DecidableEq, Repr

/-- Modelled from the spec: the graph of the engine, "sized for an expected vertex
count", with its vertices and their successor lists in insertion order. -/
structure DAG where
  capacity : Nat
  vertices : List (String × List String)
  deriving DecidableEq, Repr

/-- Modelled from the spec: `construct(vertexCount)` (`dag.New`), which "fails with
`InvalidCapacity` if the requested size is not positive". -/
def DAG.New (count : Nat) : Except DagError DAG :=
  if count = 0 then .error .invalidCapacity else .ok { capacity := count, vertices := [] }

/-- Modelled from the spec: `addVertex(id, successorIDs)` (`dag.NewVertex` followed by
`AddVertex`), which "fails with `DuplicateVertex` if `id` was already added, or
`CapacityExceeded` if the graph is already full"; edge targets are not validated. -/
def DAG.AddVertex (g : DAG) (id : String) (adj : List String) : Except DagError DAG :=
  if g.vertices.any (fun e => e.1 = id) then .error (.duplicateVertex id)
  else if g.capacity ≤ g.vertices.length then .error .capacityExceeded
  else .ok { g with vertices := g.vertices ++ [(id, adj)] }

/-- The successor list of a vertex (empty for an identifier that is no vertex). -/
def adjOf (vs : List (String × List String)) (v : String) : List String :=
  match vs.find? (fun e => e.1 = v) with
  | some e => e.2
  | none => []

/-- The outcome of a depth-first traversal: a cycle with its path, normal completion
with the list of black (fully processed) vertices, or an exhausted recursion budget. -/
inductive DfsResult where
  | cycle (path : List String)
  | done (black : List String)
  | exhausted
  deriving DecidableEq, Repr

/-- Modelled from the spec: the scan of the successors of the vertex on top of the
recursion stack in the three-colour traversal of `hasCycle()`.  `stack` holds the gray
vertices from the root of the traversal to the current vertex.  A gray successor `w`
signals a cycle, whose path is "the recursion stack slice from the first re-encountered
gray vertex to the point of re-encounter, inclusive"; a black successor is skipped; a
white one is visited by `visit`. -/
def dfsSuccs (visit : List String → List String → String → DfsResult)
    (stack : List String) : List String → List String → DfsResult
  | black, [] => .done black
  | black, w :: ws =>
    if w ∈ stack then .cycle (stack.dropWhile (fun x => x ≠ w) ++ [w])
    else if w ∈ black then dfsSuccs visit stack black ws
    else
      match visit stack black w with
      | .done black' => dfsSuccs visit stack black' ws
      | r => r

/-- Modelled from the spec: the visit of a white vertex `v` in the three-colour
traversal: `v` turns gray (is pushed on the stack), its successors are scanned, and
`v` turns black.  The first argument bounds the recursion depth. -/
def dfsVisit (vs : List (String × List String)) :
    Nat → List String → List String → String → DfsResult
  | 0, _, _, _ => .exhausted
  | fuel + 1, stack, black, v =>
    match dfsSuccs (fun s b w => dfsVisit vs fuel s b w) (stack ++ [v]) black (adjOf vs v) with
    | .done black' => .done (v :: black')
    | r => r

/-- Modelled from the spec: the outer loop of `hasCycle()`, "run the traversal from
every unvisited vertex", in insertion order. -/
def dfsAll (vs : List (String × List String)) (fuel : Nat) :
    List String → List String → DfsResult
  | black, [] => .done black
  | black, v :: rest =>
    if v ∈ black then dfsAll vs fuel black rest
    else
      match dfsVisit vs fuel [] black v with
      | .done black' => dfsAll vs fuel black' rest
      | r => r

/-- The traversal of a whole graph.  The recursion stack holds pairwise distinct
vertices, followed at most by one identifier that is no vertex, so its depth never
exceeds the budget given (see `DAG.run_ne_exhausted`). -/
def DAG.run (g : DAG) : DfsResult :=
  dfsAll g.vertices (g.vertices.length + 1) [] (g.vertices.map Prod.fst)

/-- Modelled from the spec: `hasCycle()` (`CheckCircle`): whether the traversal met a
gray vertex again; `none` only when the recursion budget is exhausted. -/
def DAG.CheckCircle (g : DAG) : Option Bool :=
  match g.run with
  | .cycle _ => some true
  | .done _ => some false
  | .exhausted => none

/-- Modelled from the spec: `cyclePath()` (`CirclePath`): the vertices of the cycle
found, "an empty/absent result when no cycle exists". -/
def DAG.CirclePath (g : DAG) : List String :=
  match g.run with
  | .cycle p => p
  | _ => []

/-! ## Validation -/

/-- The errors `validate` returns: the three built in api.go with `errors.New` and
`errors.Errorf`, and the engine's own errors handed through unchanged. -/
inductive ValidateError where
  | missingTrigger
  | emptyTaskSet
  | unknownTask (s : String) (tk : String)
  | engine (e : DagError)
  | circle (path : List String)
  deriving DecidableEq, Repr

/-- The result of a call: `nil`, an error, or no result because the recursion budget
of the traversal ran out (which never happens, see `validate_ne_exhausted`). -/
inductive Outcome where
  | nil
  | error (e : ValidateError)
  | exhausted
  deriving DecidableEq, Repr

/-- Modelled from the spec: the rendering of a cycle path, as in the example
`"A -> B -> C -> A"` of section 4.2. -/
def renderPath (p : List String) : String :=
  " -> ".intercalate p

/-- The text of an error (`err.Error()`); the texts of the engine's errors are not
part of the sources and are a parameter. -/
def ValidateError.message (engineMsg : DagError → String) : ValidateError → String
  | .missingTrigger => "schedule or route_path must be set"
  | .emptyTaskSet => "job must has at least one task"
  | .unknownTask s tk => "failed to find " ++ s ++ " in " ++ tk
  | .engine e => engineMsg e
  | .circle p => "found circle in this job, circle path: " ++ renderPath p

/-- The map `taskVertices` after the loop of api.go lines 43-55: each task name with
the successor list of the last task of that name. -/
def taskVertices (tasks : List TaskRequest) : GoMap (List String) :=
  tasks.foldl (fun m tk => m.set tk.Name (tokens tk.NextTasks)) []

/-- The map `taskCache` after the loop of api.go lines 43-55: the set of task names. -/
def taskCache (tasks : List TaskRequest) : GoMap Bool :=
  tasks.foldl (fun m tk => m.set tk.Name true) []

/-- The loop of api.go lines 56-62 over the entries in the order given: the first
successor that is no key of `cache`, with the name of the entry listing it. -/
def findUnresolved (cache : GoMap Bool) : List (String × List String) → Option (String × String)
  | [] => none
  | (tk, ntk) :: rest =>
    match ntk.find? (fun s => !cache.has s) with
    | some s => some (s, tk)
    | none => findUnresolved cache rest

/-- The loop of api.go lines 69-81 over the entries in the order given: one vertex
added per entry, the first failure returned. -/
def addVertices : DAG → List (String × List String) → Except DagError DAG
  | g, [] => .ok g
  | g, (tk, ntk) :: rest =>
    match g.AddVertex tk ntk with
    | .ok g' => addVertices g' rest
    | .error e => .error e

/-- The method `JobRequest.checkTasksDependencyCircle`; `it1` and `it2` are the
iteration orders of its two `range` loops over `taskVertices`. -/
def checkTasksDependencyCircle (it1 it2 : MapOrder) (j : JobRequest) : Outcome :=
  let tasks := j.Tasks
  let tv := taskVertices tasks
  let tc := taskCache tasks
  match findUnresolved tc (it1 tv) with
  | some (s, tk) => .error (.unknownTask s tk)
  | none =>
    match DAG.New tasks.length with
    | .error e => .error (.engine e)
    | .ok dagChecker =>
      match addVertices dagChecker (it2 tv) with
      | .error e => .error (.engine e)
      | .ok dagChecker =>
        match dagChecker.CheckCircle with
        | none => .exhausted
        | some true => .error (.circle dagChecker.CirclePath)
        | some false => .nil

/-- The method `JobRequest.validate`. -/
def validate (it1 it2 : MapOrder) (j : JobRequest) : Outcome :=
  if j.Schedule = "" ∧ j.RoutePath = "" then .error .missingTrigger
  else if j.Tasks.length = 0 then .error .emptyTaskSet
  else checkTasksDependencyCircle it1 it2 j

/-! ## Edges, closed walks and finishing order -/

/-- The successor relation of a graph: `w` is listed among the successors of `u`. -/
def Edge (vs : List (String × List String)) (u w : String) : Prop :=
  w ∈ adjOf vs u

/-- A closed walk: a list `w :: mid ++ [w]` along which every step is related by `R`. -/
def IsCyclePath (R : String → String → Prop) (p : List String) : Prop :=
  (∃ w mid, p = w :: (mid ++ [w])) ∧ List.Chain' R p

/-- The black list of a traversal in finishing order, newest first: every successor of
a vertex was black before the vertex itself turned black. -/
def TopoClosed (vs : List (String × List String)) : List String → Prop
  | [] => True
  | v :: b => (∀ w ∈ adjOf vs v, w ∈ b) ∧ TopoClosed vs b

/-- The map obtained from `acc` by the assignments `m[tk.Name] = f tk` of the loop of
api.go lines 43-55. -/
def fillMap {V : Type} (f : TaskRequest → V) (acc : GoMap V) (tasks : List TaskRequest) :
    GoMap V :=
  tasks.foldl (fun m tk => m.set tk.Name (f tk)) acc

/-! ## The successor graph of a request, as written and as kept -/

/-- The successor edges of the task list: `w` is a token of the `NextTasks` of a task
named `u`. -/
def TaskEdge (tasks : List TaskRequest) (u w : String) : Prop :=
  ∃ t ∈ tasks, t.Name = u ∧ w ∈ tokens t.NextTasks

/-- The successor edges the code keeps: `w` is listed in the entry of `u` in the map
`taskVertices`. -/
def MapEdge (tasks : List TaskRequest) (u w : String) : Prop :=
  ∃ ntk, (u, ntk) ∈ taskVertices tasks ∧ w ∈ ntk

/-- A successor token resolves when it is the name of a task of the list. -/
def Resolves (tasks : List TaskRequest) (s : String) : Prop :=
  ∃ t ∈ tasks, t.Name = s

/-- The graph handed to the engine: sized by the task count, one vertex per entry of
`taskVertices` in the order of the second loop. -/
def graphOf (it2 : MapOrder) (j : JobRequest) : DAG :=
  { capacity := j.Tasks.length, vertices := it2 (taskVertices j.Tasks) }

/-! ## Concrete requests -/

/-- A request with a schedule and the given `(name, next_tasks)` pairs as tasks. -/
def mkJob (l : List (String × String)) : JobRequest :=
  { Name := "job", Schedule := "* * * * *", RoutePath := "",
    Tasks := l.map (fun p => { Name := p.1, Command := "cmd", NextTasks := p.2 }) }

/-- The three-task cycle A -> B -> C -> A. -/
def jobCycle : JobRequest := mkJob [("A", "B"), ("B", "C"), ("C", "A")]

/-- The diamond A -> B, A -> C, B -> D, C -> D. -/
def jobDiamond : JobRequest := mkJob [("A", "B,C"), ("B", "D"), ("C", "D"), ("D", "")]

/-- The linear chain A -> B -> C. -/
def jobChain : JobRequest := mkJob [("A", "B"), ("B", "C"), ("C", "")]

/-- Two tasks named A, the first with the dangling successor Z. -/
def jobShadowed : JobRequest := mkJob [("A", "Z"), ("A", "")]

/-- A single task A with the dangling successor Z. -/
def jobDangling : JobRequest := mkJob [("A", "Z")]

/-- Two tasks with the same name and no successors. -/
def jobTwins : JobRequest := mkJob [("A", ""), ("A", "")]

/-- Two tasks with one dangling successor each. -/
def jobTwoDangling : JobRequest := mkJob [("A", "X"), ("B", "Y")]

/-- A single task listing itself as successor. -/
def jobSelfLoop : JobRequest := mkJob [("A", "A")]

/-- A rank for the vertices of the diamond that decreases along every edge. -/
def rankABCD (s : String) : Nat :=
  if s = "A" then 3 else if s = "B" then 2 else if s = "C" then 2 else if s = "D" then 1 else 0

/-- A rank for the vertices of the chain that decreases along every edge. -/
def rankABC (s : String) : Nat :=
  if s = "A" then 3 else if s = "B" then 2 else if s = "C" then 1 else 0

instance (tasks : List TaskRequest) (s : String) : Decidable (Resolves tasks s) := by
  unfold Resolves; infer_instance

instance (tasks : List TaskRequest) (u w : String) : Decidable (TaskEdge tasks u w) := by
  unfold TaskEdge; infer_instance

/-! ## Kinds of results -/

/-- The kind of a result of `validate`: nil, or which of the checks failed. -/
inductive Kind where
  | nil
  | missingTrigger
  | emptyTaskSet
  | unknownTask
  | engine
  | circle
  | exhausted
  deriving DecidableEq, Repr

/-- The kind of a result, with the names and the path carried by an error dropped. -/
def Outcome.kind : Outcome → Kind
  | .nil => .nil
  | .error .missingTrigger => .missingTrigger
  | .error .emptyTaskSet => .emptyTaskSet
  | .error (.unknownTask _ _) => .unknownTask
  | .error (.engine _) => .engine
  | .error (.circle _) => .circle
  | .exhausted => .exhausted

/-! ## The store and `save` -/

/-- The rows `save` writes: a `Job` with the identity the store gave it, and a `Task`
with the identity of its job. -/
inductive Row where
  | job (id : Nat) (name schedule routePath : String)
  | task (jobID : Nat) (name command nextTasks : String)
  deriving DecidableEq, Repr

/-- The operations issued against the store; an insert and a commit carry the store's
answer (`none` for success, the error otherwise). -/
inductive Op where
  | begin
  | insert (r : Row) (answer : Option String)
  | rollback
  | commit (answer : Option String)
  deriving DecidableEq, Repr

/-- Modelled from the spec: the persistence store (`gorm.DB`, not part of the sources),
which "exposes begin-transaction / insert-row / commit / rollback semantics": the rows
visible to readers, the rows written inside the open transaction, and the log of the
operations issued. -/
structure Store where
  committed : List Row
  pending : List Row
  log : List Op
  deriving DecidableEq, Repr

/-- The answers of the store during one call of `save`: the answer to the insert
number `n` of the transaction (number 0 is the `Job`, number `k` the `k`-th `Task`),
the identity given to the new `Job`, and the answer to the commit. -/
structure StoreBehaviour where
  insertErr : Nat → Option String
  jobID : Nat
  commitErr : Option String

/-- Modelled from the spec: `db.Begin()`, opening a transaction with nothing written. -/
def Store.Begin (s : Store) : Store :=
  { s with pending := [], log := s.log ++ [.begin] }

/-- Modelled from the spec: `tx.Create(&row)`, which writes the row inside the
transaction unless the store answers with an error. -/
def Store.Create (s : Store) (r : Row) (answer : Option String) : Store :=
  { s with
    pending := if answer.isNone then s.pending ++ [r] else s.pending,
    log := s.log ++ [.insert r answer] }

/-- Modelled from the spec: `tx.Rollback()`, a "full rollback": what was written inside
the transaction is dropped. -/
def Store.Rollback (s : Store) : Store :=
  { s with pending := [], log := s.log ++ [.rollback] }

/-- Modelled from the spec: `tx.Commit()`, which makes the rows written inside the
transaction visible unless the store answers with an error. -/
def Store.Commit (s : Store) (answer : Option String) : Store :=
  { committed := if answer.isNone then s.committed ++ s.pending else s.committed,
    pending := [],
    log := s.log ++ [.commit answer] }

/-- The `Job` row built at api.go lines 91-95, with the identity the store gives it. -/
def jobRow (b : StoreBehaviour) (j : JobRequest) : Row :=
  .job b.jobID j.Name j.Schedule j.RoutePath

/-- The `Task` row built at api.go lines 101-106. -/
def taskRow (b : StoreBehaviour) (t : TaskRequest) : Row :=
  .task b.jobID t.Name t.Command t.NextTasks

/-- The loop of api.go lines 100-111 followed by the commit of line 112; `k` is the
number of the next insert. -/
def saveTasks (b : StoreBehaviour) : Store → Nat → List TaskRequest → Option String × Store
  | tx, _, [] => (b.commitErr, tx.Commit b.commitErr)
  | tx, k, t :: ts =>
    match b.insertErr k with
    | some e => (some e, (tx.Create (taskRow b t) (some e)).Rollback)
    | none => saveTasks b (tx.Create (taskRow b t) none) (k + 1) ts

/-- The method `JobRequest.save`: the error returned (`none` for nil) and the store
afterwards. -/
def save (b : StoreBehaviour) (db : Store) (j : JobRequest) : Option String × Store :=
  let tx := db.Begin
  match b.insertErr 0 with
  | some e => (some e, (tx.Create (jobRow b j) (some e)).Rollback)
  | none => saveTasks b (tx.Create (jobRow b j) none) 1 j.Tasks

/-- The rows `save` sets out to insert, in order. -/
def rowsOf (b : StoreBehaviour) (j : JobRequest) : List Row :=
  jobRow b j :: j.Tasks.map (taskRow b)

/-- A store that rejects the insert number 2 (the second task). -/
def failSecondTask : StoreBehaviour :=
  { insertErr := fun n => if n = 2 then some "duplicate entry" else none,
    jobID := 7, commitErr := none }

/-- A store holding one committed row and no open transaction. -/
def someStore : Store :=
  { committed := [.job 1 "old" "* * * * *" ""], pending := [], log := [] }

/-! ## Blank successor lists and the shape of a token -/

/-- A `NextTasks` that consists solely of white space and commas. -/
def IsBlank (s : String) : Prop :=
  ∀ c ∈ s.data, isSpace c = true ∨ c = ','

instance (s : String) : Decidable (IsBlank s) := by
  unfold IsBlank; infer_instance

/-- A string that can be a successor token: not empty, without a comma, and with no
white space at either end. -/
def IsTokenShaped (s : String) : Prop :=
  s ≠ "" ∧ ',' ∉ s.data ∧
    (∀ c, s.data.head? = some c → isSpace c = false) ∧
    (∀ c, s.data.getLast? = some c → isSpace c = false)

/-- Four tasks whose successor lists are blank, one of them with the empty name. -/
def jobBlank : JobRequest := mkJob [("", " , ,"), ("A", ""), ("B", " "), ("C", ",")]

/-- The request `jobBlank` with every successor list written as the empty string. -/
def jobBlankPlain : JobRequest := mkJob [("", ""), ("A", ""), ("B", ""), ("C", "")]

/-- A request with a trigger and no task. -/
def jobNoTask : JobRequest := mkJob []

/-- The diamond with both triggers set. -/
def jobBothTriggers : JobRequest := { jobDiamond with RoutePath := "/run" }

/-- A store that accepts every insert and the commit, and gives the new job the
identity 7. -/
def acceptAll : StoreBehaviour :=
  { insertErr := fun _ => none, jobID := 7, commitErr := none }

/-! ## The handler -/

/-- The response written with `c.JSON(status, gin.H{key: value})`. -/
structure Response where
  status : Nat
  key : String
  value : String
  deriving DecidableEq, Repr

/-- The function `responseOK`: status `http.StatusOK` with the body `{"msg": "ok"}`. -/
def responseOK : Response :=
  { status := 200, key := "msg", value := "ok" }

/-- The function `responseBadRequest`: status `http.StatusBadRequest` with the body
`{"error": err.Error()}`. -/
def responseBadRequest (err : String) : Response :=
  { status := 400, key := "error", value := err }

/-- The method `handler.jobsNew`: `bind` is the result of `c.BindJSON(&jr)`, `db` the
store of the handler; the result is the response written and the store afterwards
(`none` only if the traversal of `validate` ran out of its recursion budget, which
never happens). -/
def jobsNew (it1 it2 : MapOrder) (engineMsg : DagError → String) (b : StoreBehaviour)
    (db : Store) (bind : Except String JobRequest) : Option (Response × Store) :=
  match bind with
  | .error e => some (responseBadRequest e, db)
  | .ok jr =>
    match validate it1 it2 jr with
    | .exhausted => none
    | .error e => some (responseBadRequest (e.message engineMsg), db)
    | .nil =>
      match save b db jr with
      | (some e, db') => some (responseBadRequest e, db')
      | (none, db') => some (responseOK, db')

/-- Task A lists the token B while the only candidate task is named " B". -/
def jobSpacedName : JobRequest := mkJob [("A", " B"), (" B", "")]

/-- Task A lists the tokens B and C while the only candidate task is named "B,C". -/
def jobCommaName : JobRequest := mkJob [("A", "B,C"), ("B,C", "")]

/-- As `jobSpacedName`, with a later task named A that lists nothing. -/
def jobSpacedShadowed : JobRequest := mkJob [("A", " B"), ("A", ""), (" B", "")]

/-! ## Collapsing duplicate names -/

/-- The task list with, for each name, only the last task of that name kept. -/
def keepLast : List TaskRequest → List TaskRequest
  | [] => []
  | t :: ts => if ts.any (fun t' => t'.Name = t.Name) then keepLast ts else t :: keepLast ts

/-- The request with, for each task name, only the last task of that name kept. -/
def collapse (j : JobRequest) : JobRequest :=
  { j with Tasks := keepLast j.Tasks }

/-- The iteration oracle that hands out the entries of the map `dst` in the order in
which `it` hands out those of `src`, and is `it` on every other map. -/
def orderAs (it : MapOrder) (src dst : GoMap (List String)) : MapOrder :=
  fun m => if m = dst then it src else it m

/-- Three tasks, two of them named A; the earlier A has a dangling successor, the
later one closes a cycle with B. -/
def jobDupCycle : JobRequest := mkJob [("A", "Z"), ("B", "A"), ("A", "B")]

/-! ## The traversal always completes -/

theorem adjOf_eq_nil_of_not_mem {vs : List (String × List String)} {v : String}
    (h : v ∉ vs.map Prod.fst) : adjOf vs v = [] := by
  unfold adjOf
  have : vs.find? (fun e => decide (e.1 = v)) = none := by
    rw [List.find?_eq_none]
    intro e he hev
    apply h
    simp only [decide_eq_true_eq] at hev
    exact List.mem_map.mpr ⟨e, he, hev⟩
  rw [this]

theorem dfsSuccs_ne_exhausted (visit : List String → List String → String → DfsResult)
    (stack : List String)
    (hv : ∀ b w, w ∉ stack → visit stack b w ≠ .exhausted) :
    ∀ ws black, dfsSuccs visit stack black ws ≠ .exhausted := by
  intro ws
  induction ws with
  | nil => intro black; simp [dfsSuccs]
  | cons w ws ih =>
    intro black
    unfold dfsSuccs
    split_ifs with h1 h2
    · simp
    · exact ih black
    · have hw := hv black w h1
      split
      · exact ih _
      · rename_i r hr
        exact hw

theorem dfsVisit_ne_exhausted (vs : List (String × List String)) :
    ∀ fuel stack black v, stack.Nodup → (∀ x ∈ stack, x ∈ vs.map Prod.fst) → v ∉ stack →
      vs.length + 1 ≤ fuel + stack.length →
      dfsVisit vs fuel stack black v ≠ .exhausted := by
  intro fuel
  induction fuel with
  | zero =>
    intro stack black v hnd hsub _ hlen
    exfalso
    have h1 : stack.length ≤ (vs.map Prod.fst).length :=
      (List.subperm_of_subset hnd hsub).length_le
    simp at h1 hlen
    omega
  | succ fuel ih =>
    intro stack black v hnd hsub hv hlen
    unfold dfsVisit
    by_cases hmem : v ∈ vs.map Prod.fst
    · have key : dfsSuccs (fun s b w => dfsVisit vs fuel s b w) (stack ++ [v]) black (adjOf vs v)
          ≠ .exhausted := by
        apply dfsSuccs_ne_exhausted
        intro b w hw
        apply ih
        · rw [List.nodup_append]
          refine ⟨hnd, List.nodup_singleton v, ?_⟩
          intro x hx hx'
          simp at hx'
          subst hx'
          exact hv hx
        · intro x hx
          rcases List.mem_append.mp hx with hx | hx
          · exact hsub x hx
          · simp at hx; subst hx; exact hmem
        · exact hw
        · simp; omega
      split
      · simp
      · rename_i r hr
        exact key
    · rw [adjOf_eq_nil_of_not_mem hmem]
      simp [dfsSuccs]

theorem dfsAll_ne_exhausted (vs : List (String × List String)) :
    ∀ rest black, dfsAll vs (vs.length + 1) black rest ≠ .exhausted := by
  intro rest
  induction rest with
  | nil => intro black; simp [dfsAll]
  | cons v rest ih =>
    intro black
    unfold dfsAll
    split_ifs with h
    · exact ih black
    · have hv : dfsVisit vs (vs.length + 1) [] black v ≠ .exhausted :=
        dfsVisit_ne_exhausted vs _ [] black v List.nodup_nil (by simp) (by simp) (by simp)
      split
      · exact ih _
      · rename_i r hr
        exact hv

theorem DAG.run_ne_exhausted (g : DAG) : g.run ≠ .exhausted :=
  dfsAll_ne_exhausted g.vertices _ _

/-! ## A reported path is a cycle of the graph -/

theorem dropWhile_ne_of_mem {w : String} :
    ∀ {l : List String}, w ∈ l → ∃ mid, l.dropWhile (fun x => x ≠ w) = w :: mid := by
  intro l
  induction l with
  | nil => intro h; simp at h
  | cons a l ih =>
    intro h
    by_cases ha : a = w
    · subst ha
      exact ⟨l, by simp [List.dropWhile]⟩
    · have hw : w ∈ l := by
        rcases List.mem_cons.mp h with h | h
        · exact absurd h.symm ha
        · exact h
      obtain ⟨mid, hmid⟩ := ih hw
      refine ⟨mid, ?_⟩
      rw [List.dropWhile_cons_of_pos (by simpa using ha)]
      exact hmid

theorem getLast?_of_suffix {l s : List String} (hs : s <:+ l) (hne : s ≠ []) :
    s.getLast? = l.getLast? := by
  obtain ⟨pre, rfl⟩ := hs
  rw [List.getLast?_append, List.getLast?_eq_getLast _ hne]
  rfl

theorem stack_slice_isCyclePath {R : String → String → Prop} {stack : List String}
    {v w : String} (hchain : List.Chain' R stack) (hlast : stack.getLast? = some v)
    (hmem : w ∈ stack) (hvw : R v w) :
    IsCyclePath R (stack.dropWhile (fun x => x ≠ w) ++ [w]) := by
  obtain ⟨mid, hmid⟩ := dropWhile_ne_of_mem hmem
  have hsuf : stack.dropWhile (fun x => x ≠ w) <:+ stack := List.dropWhile_suffix _
  refine ⟨⟨w, mid, by rw [hmid]; rfl⟩, ?_⟩
  apply List.Chain'.append (hchain.suffix hsuf) (List.chain'_singleton w)
  intro x hx y hy
  have hl : (stack.dropWhile (fun x => x ≠ w)).getLast? = some v := by
    rw [getLast?_of_suffix hsuf (by rw [hmid]; simp), hlast]
  rw [hl] at hx
  simp at hx hy
  subst hx hy
  exact hvw

theorem dfsSuccs_cycle {vs : List (String × List String)}
    (visit : List String → List String → String → DfsResult)
    (stack : List String) (v : String)
    (hchain : List.Chain' (Edge vs) stack) (hlast : stack.getLast? = some v)
    (hvisit : ∀ b w p, Edge vs v w → visit stack b w = .cycle p → IsCyclePath (Edge vs) p) :
    ∀ ws black p, (∀ w ∈ ws, Edge vs v w) → dfsSuccs visit stack black ws = .cycle p →
      IsCyclePath (Edge vs) p := by
  intro ws
  induction ws with
  | nil => intro black p _ h; simp [dfsSuccs] at h
  | cons w ws ih =>
    intro black p hws h
    have hw : Edge vs v w := hws w (List.mem_cons_self _ _)
    have hws' : ∀ x ∈ ws, Edge vs v x := fun x hx => hws x (List.mem_cons_of_mem _ hx)
    unfold dfsSuccs at h
    split_ifs at h with h1 h2
    · simp only [DfsResult.cycle.injEq] at h
      subst h
      exact stack_slice_isCyclePath hchain hlast h1 hw
    · exact ih black p hws' h
    · split at h
      · exact ih _ p hws' h
      · rename_i r hr
        exact hvisit black w p hw h

theorem dfsVisit_cycle (vs : List (String × List String)) :
    ∀ fuel stack black v p, List.Chain' (Edge vs) (stack ++ [v]) →
      dfsVisit vs fuel stack black v = .cycle p → IsCyclePath (Edge vs) p := by
  intro fuel
  induction fuel with
  | zero => intro stack black v p _ h; simp [dfsVisit] at h
  | succ fuel ih =>
    intro stack black v p hchain h
    unfold dfsVisit at h
    split at h
    · simp at h
    · rename_i r hr
      refine dfsSuccs_cycle (fun s b w => dfsVisit vs fuel s b w) (stack ++ [v]) v hchain
        (by simp) ?_ (adjOf vs v) black p (fun w hw => hw) h
      intro b w q hw hq
      apply ih (stack ++ [v]) b w q _ hq
      apply List.Chain'.append hchain (List.chain'_singleton w)
      intro x hx y hy
      simp at hx hy
      subst hx hy
      exact hw

theorem dfsAll_cycle (vs : List (String × List String)) (fuel : Nat) :
    ∀ rest black p, dfsAll vs fuel black rest = .cycle p → IsCyclePath (Edge vs) p := by
  intro rest
  induction rest with
  | nil => intro black p h; simp [dfsAll] at h
  | cons v rest ih =>
    intro black p h
    unfold dfsAll at h
    split_ifs at h with h1
    · exact ih black p h
    · split at h
      · exact ih _ p h
      · rename_i r hr
        exact dfsVisit_cycle vs fuel [] black v p (by simp) h

theorem chain_transGen {R : String → String → Prop} :
    ∀ (mid : List String) (a b : String), List.Chain' R (a :: (mid ++ [b])) →
      Relation.TransGen R a b := by
  intro mid
  induction mid with
  | nil =>
    intro a b h
    simp at h
    exact Relation.TransGen.single h
  | cons c mid ih =>
    intro a b h
    simp only [List.cons_append, List.chain'_cons] at h
    exact Relation.TransGen.head h.1 (ih c b h.2)

theorem IsCyclePath.transGen {R : String → String → Prop} {p : List String}
    (h : IsCyclePath R p) : ∃ w, w ∈ p ∧ Relation.TransGen R w w := by
  obtain ⟨⟨w, mid, rfl⟩, hc⟩ := h
  exact ⟨w, List.mem_cons_self _ _, chain_transGen mid w w hc⟩

/-! ## A completed traversal certifies acyclicity -/

theorem TopoClosed.edge_mem {vs : List (String × List String)} :
    ∀ {b : List String}, TopoClosed vs b → ∀ x ∈ b, ∀ y, Edge vs x y → y ∈ b := by
  intro b
  induction b with
  | nil => intro _ x hx; simp at hx
  | cons v b ih =>
    intro h x hx y hxy
    rcases List.mem_cons.mp hx with rfl | hx
    · exact List.mem_cons_of_mem _ (h.1 y hxy)
    · exact List.mem_cons_of_mem _ (ih h.2 x hx y hxy)

theorem TopoClosed.reach_mem {vs : List (String × List String)} {b : List String}
    (h : TopoClosed vs b) {x y : String} (hx : x ∈ b)
    (hxy : Relation.ReflTransGen (Edge vs) x y) : y ∈ b := by
  induction hxy with
  | refl => exact hx
  | tail _ hyz ih => exact h.edge_mem _ ih _ hyz

theorem TopoClosed.not_cycle {vs : List (String × List String)} :
    ∀ {b : List String}, TopoClosed vs b → ∀ x ∈ b, ¬ Relation.TransGen (Edge vs) x x := by
  intro b
  induction b with
  | nil => intro _ x hx; simp at hx
  | cons v b ih =>
    intro h x hx hcyc
    by_cases hxb : x ∈ b
    · exact ih h.2 x hxb hcyc
    · have hxv : x = v := by
        rcases List.mem_cons.mp hx with h1 | h1
        · exact h1
        · exact absurd h1 hxb
      subst hxv
      obtain ⟨w, hxw, hwx⟩ := Relation.TransGen.head'_iff.mp hcyc
      exact hxb (h.2.reach_mem (h.1 w hxw) hwx)

theorem dfsSuccs_done {vs : List (String × List String)}
    (visit : List String → List String → String → DfsResult) (stack : List String)
    (hvisit : ∀ b w b', TopoClosed vs b → visit stack b w = .done b' →
      TopoClosed vs b' ∧ w ∈ b' ∧ b ⊆ b') :
    ∀ ws black black', TopoClosed vs black → dfsSuccs visit stack black ws = .done black' →
      TopoClosed vs black' ∧ (∀ w ∈ ws, w ∈ black') ∧ black ⊆ black' := by
  intro ws
  induction ws with
  | nil =>
    intro black black' hb h
    simp only [dfsSuccs, DfsResult.done.injEq] at h
    subst h
    exact ⟨hb, by simp, List.Subset.refl _⟩
  | cons w ws ih =>
    intro black black' hb h
    unfold dfsSuccs at h
    split_ifs at h with h1 h2
    · obtain ⟨ht, hws, hsub⟩ := ih black black' hb h
      refine ⟨ht, ?_, hsub⟩
      intro x hx
      rcases List.mem_cons.mp hx with rfl | hx
      · exact hsub h2
      · exact hws x hx
    · split at h
      · rename_i b1 hb1
        obtain ⟨ht1, hw1, hsub1⟩ := hvisit black w b1 hb hb1
        obtain ⟨ht, hws, hsub⟩ := ih b1 black' ht1 h
        refine ⟨ht, ?_, fun x hx => hsub (hsub1 hx)⟩
        intro x hx
        rcases List.mem_cons.mp hx with rfl | hx
        · exact hsub hw1
        · exact hws x hx
      · rename_i r hr
        exact absurd h (hr black')

theorem dfsVisit_done (vs : List (String × List String)) :
    ∀ fuel stack black v black', TopoClosed vs black →
      dfsVisit vs fuel stack black v = .done black' →
      TopoClosed vs black' ∧ v ∈ black' ∧ black ⊆ black' := by
  intro fuel
  induction fuel with
  | zero => intro stack black v black' _ h; simp [dfsVisit] at h
  | succ fuel ih =>
    intro stack black v black' hb h
    unfold dfsVisit at h
    split at h
    · rename_i b1 hb1
      simp only [DfsResult.done.injEq] at h
      subst h
      obtain ⟨ht, hws, hsub⟩ := dfsSuccs_done (fun s b w => dfsVisit vs fuel s b w)
        (stack ++ [v]) (fun b w b' hb0 h0 => ih (stack ++ [v]) b w b' hb0 h0)
        (adjOf vs v) black b1 hb hb1
      exact ⟨⟨hws, ht⟩, List.mem_cons_self _ _, fun x hx => List.mem_cons_of_mem _ (hsub hx)⟩
    · rename_i r hr
      exact absurd h (hr black')

theorem dfsAll_done (vs : List (String × List String)) (fuel : Nat) :
    ∀ rest black black', TopoClosed vs black → dfsAll vs fuel black rest = .done black' →
      TopoClosed vs black' ∧ (∀ v ∈ rest, v ∈ black') ∧ black ⊆ black' := by
  intro rest
  induction rest with
  | nil =>
    intro black black' hb h
    simp only [dfsAll, DfsResult.done.injEq] at h
    subst h
    exact ⟨hb, by simp, List.Subset.refl _⟩
  | cons v rest ih =>
    intro black black' hb h
    unfold dfsAll at h
    split_ifs at h with h1
    · obtain ⟨ht, hws, hsub⟩ := ih black black' hb h
      refine ⟨ht, ?_, hsub⟩
      intro x hx
      rcases List.mem_cons.mp hx with rfl | hx
      · exact hsub h1
      · exact hws x hx
    · split at h
      · rename_i b1 hb1
        obtain ⟨ht1, hw1, hsub1⟩ := dfsVisit_done vs fuel [] black v b1 hb hb1
        obtain ⟨ht, hws, hsub⟩ := ih b1 black' ht1 h
        refine ⟨ht, ?_, fun x hx => hsub (hsub1 hx)⟩
        intro x hx
        rcases List.mem_cons.mp hx with rfl | hx
        · exact hsub hw1
        · exact hws x hx
      · rename_i r hr
        exact absurd h (hr black')

theorem Edge.mem_keys {vs : List (String × List String)} {u w : String}
    (h : Edge vs u w) : u ∈ vs.map Prod.fst := by
  by_contra hu
  unfold Edge at h
  rw [adjOf_eq_nil_of_not_mem hu] at h
  simp at h

/-- The traversal reports a cycle exactly when the graph has one. -/
theorem DAG.run_cycle_iff (g : DAG) :
    (∃ p, g.run = .cycle p) ↔ ∃ x, Relation.TransGen (Edge g.vertices) x x := by
  constructor
  · rintro ⟨p, hp⟩
    obtain ⟨w, _, hw⟩ := (dfsAll_cycle g.vertices _ _ _ p hp).transGen
    exact ⟨w, hw⟩
  · rintro ⟨x, hx⟩
    cases hrun : g.run with
    | cycle p => exact ⟨p, rfl⟩
    | exhausted => exact absurd hrun g.run_ne_exhausted
    | done b =>
      exfalso
      obtain ⟨ht, hall, _⟩ := dfsAll_done g.vertices _ _ [] b trivial hrun
      obtain ⟨w, hxw, _⟩ := Relation.TransGen.head'_iff.mp hx
      exact ht.not_cycle x (hall x hxw.mem_keys) hx

/-! ## The maps built from the task list -/

theorem GoMap.keys_set {V : Type} (m : GoMap V) (k : String) (v : V) :
    (m.set k v).map Prod.fst =
      if k ∈ m.map Prod.fst then m.map Prod.fst else m.map Prod.fst ++ [k] := by
  induction m with
  | nil => simp [GoMap.set]
  | cons e rest ih =>
    obtain ⟨k', v'⟩ := e
    unfold GoMap.set
    by_cases h : k' = k
    · subst h
      simp
    · have h' : ¬ k = k' := fun hk => h hk.symm
      simp only [h, if_false, List.map_cons, List.mem_cons, h', false_or, ih]
      split_ifs <;> simp

theorem GoMap.nodup_keys_set {V : Type} {m : GoMap V} (k : String) (v : V)
    (h : (m.map Prod.fst).Nodup) : ((m.set k v).map Prod.fst).Nodup := by
  rw [GoMap.keys_set]
  split_ifs with hk
  · exact h
  · rw [List.nodup_append]
    refine ⟨h, List.nodup_singleton k, ?_⟩
    intro x hx hx'
    simp at hx'
    subst hx'
    exact hk hx

theorem GoMap.mem_set_self {V : Type} (m : GoMap V) (k : String) (v : V) :
    (k, v) ∈ m.set k v := by
  induction m with
  | nil => simp [GoMap.set]
  | cons e rest ih =>
    obtain ⟨k', v'⟩ := e
    unfold GoMap.set
    split_ifs with h
    · exact List.mem_cons_self _ _
    · exact List.mem_cons_of_mem _ ih

theorem GoMap.mem_set_of_ne {V : Type} {m : GoMap V} {e : String × V} (k : String) (v : V)
    (he : e ∈ m) (hne : e.1 ≠ k) : e ∈ m.set k v := by
  induction m with
  | nil => simp at he
  | cons e' rest ih =>
    obtain ⟨k', v'⟩ := e'
    unfold GoMap.set
    rcases List.mem_cons.mp he with rfl | he
    · simp only at hne
      rw [if_neg hne]
      exact List.mem_cons_self _ _
    · split_ifs with h
      · exact List.mem_cons_of_mem _ he
      · exact List.mem_cons_of_mem _ (ih he)

theorem GoMap.mem_of_mem_set {V : Type} {m : GoMap V} {e : String × V} {k : String} {v : V}
    (he : e ∈ m.set k v) : e = (k, v) ∨ e ∈ m := by
  induction m with
  | nil => left; simpa [GoMap.set] using he
  | cons e' rest ih =>
    obtain ⟨k', v'⟩ := e'
    unfold GoMap.set at he
    split_ifs at he with h
    · rcases List.mem_cons.mp he with h1 | h1
      · exact Or.inl h1
      · exact Or.inr (List.mem_cons_of_mem _ h1)
    · rcases List.mem_cons.mp he with h1 | h1
      · exact Or.inr (h1 ▸ List.mem_cons_self _ _)
      · rcases ih h1 with h2 | h2
        · exact Or.inl h2
        · exact Or.inr (List.mem_cons_of_mem _ h2)

theorem GoMap.length_set_le {V : Type} (m : GoMap V) (k : String) (v : V) :
    (m.set k v).length ≤ m.length + 1 := by
  have h := congrArg List.length (GoMap.keys_set m k v)
  simp only [List.length_map] at h
  rw [h]
  split_ifs <;> simp

theorem GoMap.has_iff {V : Type} (m : GoMap V) (k : String) :
    m.has k = true ↔ k ∈ m.map Prod.fst := by
  unfold GoMap.has
  rw [List.any_eq_true, List.mem_map]
  constructor
  · rintro ⟨e, he, hk⟩
    exact ⟨e, he, by simpa using hk⟩
  · rintro ⟨e, he, hk⟩
    exact ⟨e, he, by simpa using hk⟩

theorem fillMap_keys_nodup {V : Type} (f : TaskRequest → V) :
    ∀ (tasks : List TaskRequest) (acc : GoMap V), (acc.map Prod.fst).Nodup →
      ((fillMap f acc tasks).map Prod.fst).Nodup := by
  intro tasks
  induction tasks with
  | nil => intro acc h; exact h
  | cons t tasks ih =>
    intro acc h
    exact ih _ (GoMap.nodup_keys_set _ _ h)

theorem fillMap_mem_keys {V : Type} (f : TaskRequest → V) :
    ∀ (tasks : List TaskRequest) (acc : GoMap V) (k : String),
      k ∈ (fillMap f acc tasks).map Prod.fst ↔
        k ∈ acc.map Prod.fst ∨ ∃ t ∈ tasks, t.Name = k := by
  intro tasks
  induction tasks with
  | nil => intro acc k; simp [fillMap]
  | cons t tasks ih =>
    intro acc k
    have h := ih (acc.set t.Name (f t)) k
    simp only [fillMap, List.foldl_cons] at h ⊢
    rw [h, GoMap.keys_set]
    by_cases hk : t.Name = k
    · subst hk
      constructor
      · intro _; exact Or.inr ⟨t, List.mem_cons_self _ _, rfl⟩
      · intro _; left; split_ifs with h1
        · exact h1
        · simp
    · constructor
      · rintro (h1 | ⟨t', ht', hn⟩)
        · left
          split_ifs at h1 with h2
          · exact h1
          · rcases List.mem_append.mp h1 with h3 | h3
            · exact h3
            · simp at h3; exact absurd h3.symm hk
        · exact Or.inr ⟨t', List.mem_cons_of_mem _ ht', hn⟩
      · rintro (h1 | ⟨t', ht', hn⟩)
        · left
          split_ifs
          · exact h1
          · exact List.mem_append_left _ h1
        · rcases List.mem_cons.mp ht' with rfl | ht'
          · exact absurd hn hk
          · exact Or.inr ⟨t', ht', hn⟩

theorem fillMap_mem {V : Type} (f : TaskRequest → V) :
    ∀ (tasks : List TaskRequest) (acc : GoMap V) (e : String × V),
      e ∈ fillMap f acc tasks → e ∈ acc ∨ ∃ t ∈ tasks, t.Name = e.1 ∧ e.2 = f t := by
  intro tasks
  induction tasks with
  | nil => intro acc e h; exact Or.inl h
  | cons t tasks ih =>
    intro acc e h
    rcases ih (acc.set t.Name (f t)) e h with h1 | ⟨t', ht', hn⟩
    · rcases GoMap.mem_of_mem_set h1 with h2 | h2
      · right
        exact ⟨t, List.mem_cons_self _ _, by rw [h2], by rw [h2]⟩
      · exact Or.inl h2
    · exact Or.inr ⟨t', List.mem_cons_of_mem _ ht', hn⟩

theorem fillMap_mem_of_mem {V : Type} (f : TaskRequest → V) :
    ∀ (tasks : List TaskRequest) (acc : GoMap V) (e : String × V),
      e ∈ acc → (∀ t ∈ tasks, t.Name ≠ e.1) → e ∈ fillMap f acc tasks := by
  intro tasks
  induction tasks with
  | nil => intro acc e h _; exact h
  | cons t tasks ih =>
    intro acc e h hne
    apply ih (acc.set t.Name (f t)) e
    · exact GoMap.mem_set_of_ne _ _ h (fun hk => hne t (List.mem_cons_self _ _) hk.symm)
    · intro t' ht'
      exact hne t' (List.mem_cons_of_mem _ ht')

/-- The entry of the last task of a name is the one the map keeps. -/
theorem fillMap_mem_last {V : Type} (f : TaskRequest → V) (pre post : List TaskRequest)
    (t : TaskRequest) (hpost : ∀ t' ∈ post, t'.Name ≠ t.Name) :
    (t.Name, f t) ∈ fillMap f [] (pre ++ t :: post) := by
  unfold fillMap
  rw [List.foldl_append, List.foldl_cons]
  exact fillMap_mem_of_mem f post _ _ (GoMap.mem_set_self _ _ _) hpost

theorem fillMap_length_le {V : Type} (f : TaskRequest → V) :
    ∀ (tasks : List TaskRequest) (acc : GoMap V),
      (fillMap f acc tasks).length ≤ acc.length + tasks.length := by
  intro tasks
  induction tasks with
  | nil => intro acc; simp [fillMap]
  | cons t tasks ih =>
    intro acc
    have h1 := ih (acc.set t.Name (f t))
    have h2 := GoMap.length_set_le acc t.Name (f t)
    simp only [fillMap, List.foldl_cons, List.length_cons] at h1 ⊢
    omega

theorem taskVertices_eq (tasks : List TaskRequest) :
    taskVertices tasks = fillMap (fun tk => tokens tk.NextTasks) [] tasks := rfl

theorem taskCache_eq (tasks : List TaskRequest) :
    taskCache tasks = fillMap (fun _ => true) [] tasks := rfl

theorem taskCache_has (tasks : List TaskRequest) (s : String) :
    (taskCache tasks).has s = true ↔ ∃ t ∈ tasks, t.Name = s := by
  rw [GoMap.has_iff, taskCache_eq, fillMap_mem_keys]
  simp

/-! ## The two loops over the map -/

theorem findUnresolved_some {cache : GoMap Bool} :
    ∀ {es : List (String × List String)} {s tk : String},
      findUnresolved cache es = some (s, tk) →
      ∃ ntk, (tk, ntk) ∈ es ∧ s ∈ ntk ∧ cache.has s = false := by
  intro es
  induction es with
  | nil => intro s tk h; simp [findUnresolved] at h
  | cons e rest ih =>
    intro s tk h
    obtain ⟨k, ntk⟩ := e
    unfold findUnresolved at h
    split at h
    · rename_i s' hs'
      simp only [Option.some.injEq, Prod.mk.injEq] at h
      obtain ⟨rfl, rfl⟩ := h
      refine ⟨ntk, List.mem_cons_self _ _, List.mem_of_find?_eq_some hs', ?_⟩
      simpa using List.find?_some hs'
    · obtain ⟨ntk', hmem, hs, hc⟩ := ih h
      exact ⟨ntk', List.mem_cons_of_mem _ hmem, hs, hc⟩

theorem findUnresolved_eq_none {cache : GoMap Bool} :
    ∀ {es : List (String × List String)},
      findUnresolved cache es = none ↔ ∀ e ∈ es, ∀ s ∈ e.2, cache.has s = true := by
  intro es
  induction es with
  | nil => simp [findUnresolved]
  | cons e rest ih =>
    obtain ⟨k, ntk⟩ := e
    unfold findUnresolved
    constructor
    · intro h
      split at h
      · simp at h
      · rename_i hnone
        intro e he s hs
        rcases List.mem_cons.mp he with rfl | he
        · rw [List.find?_eq_none] at hnone
          simpa using hnone s hs
        · exact ih.mp h e he s hs
    · intro h
      have hnone : ntk.find? (fun s => !cache.has s) = none := by
        rw [List.find?_eq_none]
        intro s hs
        simpa using h (k, ntk) (List.mem_cons_self _ _) s hs
      rw [hnone]
      exact ih.mpr (fun e he => h e (List.mem_cons_of_mem _ he))

theorem findUnresolved_isSome_iff {cache : GoMap Bool} {es : List (String × List String)} :
    (∃ r, findUnresolved cache es = some r) ↔ ∃ e ∈ es, ∃ s ∈ e.2, cache.has s = false := by
  constructor
  · rintro ⟨⟨s, tk⟩, h⟩
    obtain ⟨ntk, hmem, hs, hc⟩ := findUnresolved_some h
    exact ⟨(tk, ntk), hmem, s, hs, hc⟩
  · rintro ⟨e, he, s, hs, hc⟩
    cases hfu : findUnresolved cache es with
    | some r => exact ⟨r, rfl⟩
    | none =>
      have := findUnresolved_eq_none.mp hfu e he s hs
      rw [hc] at this
      exact absurd this (by simp)

theorem addVertices_ok :
    ∀ (es : List (String × List String)) (g : DAG),
      ((g.vertices ++ es).map Prod.fst).Nodup → (g.vertices ++ es).length ≤ g.capacity →
      addVertices g es = .ok { capacity := g.capacity, vertices := g.vertices ++ es } := by
  intro es
  induction es with
  | nil => intro g _ _; simp [addVertices]
  | cons e rest ih =>
    intro g hnd hlen
    obtain ⟨tk, ntk⟩ := e
    have hnot : g.vertices.any (fun e => decide (e.1 = tk)) = false := by
      rw [List.any_eq_false]
      intro e he hk
      simp only [decide_eq_true_eq] at hk
      rw [List.map_append, List.nodup_append] at hnd
      exact hnd.2.2 (List.mem_map.mpr ⟨e, he, hk⟩) (by simp)
    have hcap : ¬ g.capacity ≤ g.vertices.length := by
      simp only [List.length_append, List.length_cons] at hlen
      omega
    unfold addVertices
    simp only [DAG.AddVertex, hnot, hcap, if_false, Bool.false_eq_true]
    have h := ih { capacity := g.capacity, vertices := g.vertices ++ [(tk, ntk)] }
      (by simpa using hnd) (by simpa using hlen)
    simpa using h

theorem addVertices_vertices :
    ∀ (es : List (String × List String)) (g g' : DAG),
      addVertices g es = .ok g' → g'.vertices = g.vertices ++ es := by
  intro es
  induction es with
  | nil =>
    intro g g' h
    simp only [addVertices, Except.ok.injEq] at h
    simp [h]
  | cons e rest ih =>
    intro g g' h
    obtain ⟨tk, ntk⟩ := e
    unfold addVertices at h
    split at h
    · rename_i g1 hg1
      have h1 := ih g1 g' h
      unfold DAG.AddVertex at hg1
      split_ifs at hg1
      simp only [Except.ok.injEq] at hg1
      rw [h1, ← hg1]
      simp
    · simp at h

theorem adjOf_of_mem {vs : List (String × List String)} {k : String} {v : List String}
    (hnd : (vs.map Prod.fst).Nodup) (h : (k, v) ∈ vs) : adjOf vs k = v := by
  induction vs with
  | nil => simp at h
  | cons e rest ih =>
    obtain ⟨k', v'⟩ := e
    simp only [List.map_cons, List.nodup_cons] at hnd
    unfold adjOf
    rcases List.mem_cons.mp h with h1 | h1
    · simp only [Prod.mk.injEq] at h1
      obtain ⟨rfl, rfl⟩ := h1
      simp
    · have hne : k' ≠ k := by
        intro hk
        subst hk
        exact hnd.1 (List.mem_map.mpr ⟨(k', v), h1, rfl⟩)
      have := ih hnd.2 h1
      unfold adjOf at this
      simpa [List.find?, hne] using this

theorem adjOf_mem {vs : List (String × List String)} {u w : String}
    (h : w ∈ adjOf vs u) : ∃ ntk, (u, ntk) ∈ vs ∧ w ∈ ntk := by
  unfold adjOf at h
  split at h
  · rename_i e he
    have h1 := List.mem_of_find?_eq_some he
    have h2 := List.find?_some he
    simp only [decide_eq_true_eq] at h2
    exact ⟨e.2, by rw [← h2]; exact h1, h⟩
  · simp at h

/-! ## The successor graph of a request -/

theorem taskVertices_keys_nodup (tasks : List TaskRequest) :
    ((taskVertices tasks).map Prod.fst).Nodup :=
  fillMap_keys_nodup _ tasks [] List.nodup_nil

theorem taskVertices_length_le (tasks : List TaskRequest) :
    (taskVertices tasks).length ≤ tasks.length := by
  have := fillMap_length_le (fun tk => tokens tk.NextTasks) tasks []
  simpa [taskVertices_eq] using this

theorem MapEdge.taskEdge {tasks : List TaskRequest} {u w : String}
    (h : MapEdge tasks u w) : TaskEdge tasks u w := by
  obtain ⟨ntk, hmem, hw⟩ := h
  rcases fillMap_mem _ tasks [] _ hmem with h1 | ⟨t, ht, hn, hv⟩
  · simp at h1
  · simp only at hn hv
    exact ⟨t, ht, hn, hv ▸ hw⟩

theorem mem_taskVertices_of_last {tasks pre post : List TaskRequest} {t : TaskRequest}
    (hsplit : tasks = pre ++ t :: post) (hpost : ∀ t' ∈ post, t'.Name ≠ t.Name) :
    (t.Name, tokens t.NextTasks) ∈ taskVertices tasks := by
  rw [hsplit, taskVertices_eq]
  exact fillMap_mem_last (fun tk => tokens tk.NextTasks) pre post t hpost

theorem mem_taskVertices_of_nodup {tasks : List TaskRequest}
    (hd : (tasks.map (fun t => t.Name)).Nodup) {t : TaskRequest} (ht : t ∈ tasks) :
    (t.Name, tokens t.NextTasks) ∈ taskVertices tasks := by
  obtain ⟨pre, post, hsplit⟩ := List.append_of_mem ht
  refine mem_taskVertices_of_last hsplit ?_
  intro t' ht' hn
  rw [hsplit, List.map_append, List.map_cons, List.nodup_append] at hd
  have h2 := hd.2.1
  rw [List.nodup_cons] at h2
  exact h2.1 (List.mem_map.mpr ⟨t', ht', hn⟩)

theorem TaskEdge.mapEdge {tasks : List TaskRequest}
    (hd : (tasks.map (fun t => t.Name)).Nodup) {u w : String}
    (h : TaskEdge tasks u w) : MapEdge tasks u w := by
  obtain ⟨t, ht, hn, hw⟩ := h
  exact ⟨tokens t.NextTasks, hn ▸ mem_taskVertices_of_nodup hd ht, hw⟩

theorem edge_iff_mapEdge {it : MapOrder} (hit : IsMapOrder it) (tasks : List TaskRequest)
    (u w : String) : Edge (it (taskVertices tasks)) u w ↔ MapEdge tasks u w := by
  have hperm := hit (taskVertices tasks)
  have hnd : ((it (taskVertices tasks)).map Prod.fst).Nodup :=
    (hperm.map Prod.fst).nodup_iff.mpr (taskVertices_keys_nodup tasks)
  constructor
  · intro h
    obtain ⟨ntk, hmem, hw⟩ := adjOf_mem h
    exact ⟨ntk, hperm.mem_iff.mp hmem, hw⟩
  · rintro ⟨ntk, hmem, hw⟩
    unfold Edge
    rw [adjOf_of_mem hnd (hperm.mem_iff.mpr hmem)]
    exact hw

theorem transGen_edge_iff {it : MapOrder} (hit : IsMapOrder it) (tasks : List TaskRequest)
    (x y : String) :
    Relation.TransGen (Edge (it (taskVertices tasks))) x y ↔
      Relation.TransGen (MapEdge tasks) x y := by
  constructor
  · exact Relation.TransGen.mono (fun a b h => (edge_iff_mapEdge hit tasks a b).mp h)
  · exact Relation.TransGen.mono (fun a b h => (edge_iff_mapEdge hit tasks a b).mpr h)

/-- Whether the first loop over the map finds an unresolved successor does not depend
on the order of iteration. -/
theorem findUnresolved_none_iff {it : MapOrder} (hit : IsMapOrder it)
    (tasks : List TaskRequest) :
    findUnresolved (taskCache tasks) (it (taskVertices tasks)) = none ↔
      ∀ u w, MapEdge tasks u w → Resolves tasks w := by
  have hperm := hit (taskVertices tasks)
  rw [findUnresolved_eq_none]
  constructor
  · rintro h u w ⟨ntk, hmem, hw⟩
    exact (taskCache_has tasks w).mp (h (u, ntk) (hperm.mem_iff.mpr hmem) w hw)
  · intro h e he s hs
    exact (taskCache_has tasks s).mpr (h e.1 s ⟨e.2, hperm.mem_iff.mp he, hs⟩)

/-- What `checkTasksDependencyCircle` computes once every successor resolves: the
graph is built without error and the result is that of the traversal. -/
theorem check_eq_of_resolved (it1 it2 : MapOrder) (h2 : IsMapOrder it2) (j : JobRequest)
    (hne : j.Tasks ≠ [])
    (hfu : findUnresolved (taskCache j.Tasks) (it1 (taskVertices j.Tasks)) = none) :
    checkTasksDependencyCircle it1 it2 j =
      match (graphOf it2 j).run with
      | .cycle p => .error (.circle p)
      | .done _ => .nil
      | .exhausted => .exhausted := by
  have hperm := h2 (taskVertices j.Tasks)
  have hlen : j.Tasks.length ≠ 0 := by
    intro h; exact hne (List.length_eq_zero.mp h)
  have hadd := addVertices_ok (it2 (taskVertices j.Tasks))
    { capacity := j.Tasks.length, vertices := [] }
    (by
      simp only [List.nil_append]
      exact (hperm.map Prod.fst).nodup_iff.mpr (taskVertices_keys_nodup j.Tasks))
    (by
      simp only [List.nil_append]
      rw [hperm.length_eq]
      exact taskVertices_length_le j.Tasks)
  simp only [List.nil_append] at hadd
  unfold checkTasksDependencyCircle
  simp only [hfu, DAG.New, hlen, if_false, hadd, DAG.CheckCircle, DAG.CirclePath, graphOf]
  cases (DAG.run { capacity := j.Tasks.length, vertices := it2 (taskVertices j.Tasks) }) <;> rfl

theorem check_of_unresolved (it1 it2 : MapOrder) (j : JobRequest) {s tk : String}
    (hfu : findUnresolved (taskCache j.Tasks) (it1 (taskVertices j.Tasks)) = some (s, tk)) :
    checkTasksDependencyCircle it1 it2 j = .error (.unknownTask s tk) := by
  unfold checkTasksDependencyCircle
  simp only [hfu]

theorem validate_eq_check (it1 it2 : MapOrder) (j : JobRequest)
    (htrig : j.Schedule ≠ "" ∨ j.RoutePath ≠ "") (hne : j.Tasks ≠ []) :
    validate it1 it2 j = checkTasksDependencyCircle it1 it2 j := by
  unfold validate
  have h1 : ¬ (j.Schedule = "" ∧ j.RoutePath = "") := by
    rintro ⟨ha, hb⟩
    rcases htrig with h | h
    · exact h ha
    · exact h hb
  have h2 : ¬ j.Tasks.length = 0 := fun h => hne (List.length_eq_zero.mp h)
  rw [if_neg h1, if_neg h2]

/-- The recursion budget of the traversal is never exhausted: `validate` always
returns nil or an error. -/
theorem validate_ne_exhausted (it1 it2 : MapOrder) (j : JobRequest) :
    validate it1 it2 j ≠ .exhausted := by
  intro h
  unfold validate at h
  split_ifs at h
  unfold checkTasksDependencyCircle at h
  simp only at h
  split at h
  · simp at h
  · split at h
    · simp at h
    · split at h
      · simp at h
      · rename_i g hg
        unfold DAG.CheckCircle at h
        have hrun := g.run_ne_exhausted
        cases hr : g.run with
        | cycle p => rw [hr] at h; simp at h
        | done b => rw [hr] at h; simp at h
        | exhausted => exact hrun hr

/-- With every successor resolving, a cycle of the kept graph is reported. -/
theorem check_circle_of_cycle (it1 it2 : MapOrder) (h1 : IsMapOrder it1) (h2 : IsMapOrder it2)
    (j : JobRequest) (hne : j.Tasks ≠ [])
    (hres : ∀ u w, MapEdge j.Tasks u w → Resolves j.Tasks w)
    (hcyc : ∃ x, Relation.TransGen (MapEdge j.Tasks) x x) :
    ∃ p, checkTasksDependencyCircle it1 it2 j = .error (.circle p) := by
  rw [check_eq_of_resolved it1 it2 h2 j hne ((findUnresolved_none_iff h1 j.Tasks).mpr hres)]
  obtain ⟨x, hx⟩ := hcyc
  obtain ⟨p, hp⟩ := (graphOf it2 j).run_cycle_iff.mpr
    ⟨x, (transGen_edge_iff h2 j.Tasks x x).mpr hx⟩
  exact ⟨p, by rw [hp]⟩

/-- With every successor resolving and no cycle in the kept graph, the result is nil. -/
theorem check_nil_of_acyclic (it1 it2 : MapOrder) (h1 : IsMapOrder it1) (h2 : IsMapOrder it2)
    (j : JobRequest) (hne : j.Tasks ≠ [])
    (hres : ∀ u w, MapEdge j.Tasks u w → Resolves j.Tasks w)
    (hacyc : ∀ x, ¬ Relation.TransGen (MapEdge j.Tasks) x x) :
    checkTasksDependencyCircle it1 it2 j = .nil := by
  rw [check_eq_of_resolved it1 it2 h2 j hne ((findUnresolved_none_iff h1 j.Tasks).mpr hres)]
  cases hrun : (graphOf it2 j).run with
  | done b => rfl
  | exhausted => exact absurd hrun (graphOf it2 j).run_ne_exhausted
  | cycle p =>
    exfalso
    obtain ⟨x, hx⟩ := (graphOf it2 j).run_cycle_iff.mp ⟨p, hrun⟩
    exact hacyc x ((transGen_edge_iff h2 j.Tasks x x).mp hx)

/-- A reported path is a closed walk along the kept successor edges. -/
theorem check_circle_path (it1 it2 : MapOrder) (h2 : IsMapOrder it2) (j : JobRequest)
    (p : List String) (h : checkTasksDependencyCircle it1 it2 j = .error (.circle p)) :
    IsCyclePath (MapEdge j.Tasks) p := by
  unfold checkTasksDependencyCircle at h
  simp only at h
  split at h
  · simp at h
  · split at h
    · simp at h
    · rename_i g0 hg0
      split at h
      · simp at h
      · rename_i g hg
        have hv := addVertices_vertices _ _ _ hg
        unfold DAG.New at hg0
        split_ifs at hg0
        simp only [Except.ok.injEq] at hg0
        rw [← hg0] at hv
        simp only [List.nil_append] at hv
        unfold DAG.CheckCircle DAG.CirclePath at h
        cases hrun : g.run with
        | done b => rw [hrun] at h; simp at h
        | exhausted => rw [hrun] at h; simp at h
        | cycle q =>
          rw [hrun] at h
          simp only [Outcome.error.injEq, ValidateError.circle.injEq] at h
          subst h
          have hc := dfsAll_cycle g.vertices _ _ _ q hrun
          rw [hv] at hc
          exact ⟨hc.1, hc.2.imp (fun a b hab => (edge_iff_mapEdge h2 j.Tasks a b).mp hab)⟩

/-! ## Requests used as concrete inputs -/

theorem isMapOrder_id : IsMapOrder id := fun m => List.Perm.refl m

theorem isMapOrder_reverse : IsMapOrder List.reverse := fun m => List.reverse_perm m

theorem acyclic_of_rank (tasks : List TaskRequest) (rank : String → Nat)
    (h : ∀ t ∈ tasks, ∀ w ∈ tokens t.NextTasks, rank w < rank t.Name) :
    ∀ x, ¬ Relation.TransGen (TaskEdge tasks) x x := by
  have key : ∀ x y, Relation.TransGen (TaskEdge tasks) x y → rank y < rank x := by
    intro x y hxy
    induction hxy with
    | single hab =>
      obtain ⟨t, ht, rfl, hw⟩ := hab
      exact h t ht _ hw
    | tail _ hbc ih =>
      obtain ⟨t, ht, rfl, hw⟩ := hbc
      exact lt_trans (h t ht _ hw) ih
  intro x hx
  exact lt_irrefl _ (key x x hx)

theorem resolves_of_mapEdge {tasks : List TaskRequest}
    (hres : ∀ t ∈ tasks, ∀ s ∈ tokens t.NextTasks, Resolves tasks s) :
    ∀ u w, MapEdge tasks u w → Resolves tasks w := by
  intro u w h
  obtain ⟨t, ht, _, hw⟩ := h.taskEdge
  exact hres t ht w hw

theorem validate_circle_of_cycle (it1 it2 : MapOrder) (h1 : IsMapOrder it1)
    (h2 : IsMapOrder it2) (j : JobRequest)
    (htrig : j.Schedule ≠ "" ∨ j.RoutePath ≠ "") (hne : j.Tasks ≠ [])
    (hd : (j.Tasks.map (fun t => t.Name)).Nodup)
    (hres : ∀ t ∈ j.Tasks, ∀ s ∈ tokens t.NextTasks, Resolves j.Tasks s)
    (hcyc : ∃ x, Relation.TransGen (TaskEdge j.Tasks) x x) :
    ∃ p, validate it1 it2 j = .error (.circle p) := by
  rw [validate_eq_check it1 it2 j htrig hne]
  obtain ⟨x, hx⟩ := hcyc
  exact check_circle_of_cycle it1 it2 h1 h2 j hne (resolves_of_mapEdge hres)
    ⟨x, hx.mono (fun a b hab => hab.mapEdge hd)⟩

/-! ## The claims -/

/-- C1 (no missed cycle): for a request with a trigger, at least one task, pairwise
distinct task names and every successor token naming a task, a directed cycle in the
graph of successor tokens makes `validate` return the error
"found circle in this job, circle path: <path>", whatever the order in which the two
loops iterate the map. -/
theorem validate_reports_cycle (it1 it2 : MapOrder) (h1 : IsMapOrder it1)
    (h2 : IsMapOrder it2) (j : JobRequest)
    (htrig : j.Schedule ≠ "" ∨ j.RoutePath ≠ "") (hne : j.Tasks ≠ [])
    (hd : (j.Tasks.map (fun t => t.Name)).Nodup)
    (hres : ∀ t ∈ j.Tasks, ∀ s ∈ tokens t.NextTasks, Resolves j.Tasks s)
    (hcyc : ∃ x, Relation.TransGen (TaskEdge j.Tasks) x x) :
    ∃ p, validate it1 it2 j = .error (.circle p) ∧
      ∀ em, (ValidateError.circle p).message em =
        "found circle in this job, circle path: " ++ renderPath p := by
  obtain ⟨p, hp⟩ := validate_circle_of_cycle it1 it2 h1 h2 j htrig hne hd hres hcyc
  exact ⟨p, hp, fun _ => rfl⟩

theorem validate_reports_cycle_witness :
    ∃ p, validate id id jobCycle = .error (.circle p) ∧
      ∀ em, (ValidateError.circle p).message em =
        "found circle in this job, circle path: " ++ renderPath p :=
  validate_reports_cycle id id isMapOrder_id isMapOrder_id jobCycle
    (by decide) (by decide) (by decide) (by decide)
    ⟨"A", Relation.TransGen.head (b := "B") (by decide)
      (Relation.TransGen.head (b := "C") (by decide) (Relation.TransGen.single (by decide)))⟩

/-- C2 (no false cycle): for a request with a trigger, at least one task, pairwise
distinct task names, every successor token naming a task and an acyclic graph of
successor tokens, `validate` returns nil, whatever the order in which the two loops
iterate the map. -/
theorem validate_accepts_acyclic (it1 it2 : MapOrder) (h1 : IsMapOrder it1)
    (h2 : IsMapOrder it2) (j : JobRequest)
    (htrig : j.Schedule ≠ "" ∨ j.RoutePath ≠ "") (hne : j.Tasks ≠ [])
    (_hd : (j.Tasks.map (fun t => t.Name)).Nodup)
    (hres : ∀ t ∈ j.Tasks, ∀ s ∈ tokens t.NextTasks, Resolves j.Tasks s)
    (hacyc : ∀ x, ¬ Relation.TransGen (TaskEdge j.Tasks) x x) :
    validate it1 it2 j = .nil := by
  rw [validate_eq_check it1 it2 j htrig hne]
  refine check_nil_of_acyclic it1 it2 h1 h2 j hne (resolves_of_mapEdge hres) ?_
  intro x hx
  exact hacyc x (hx.mono (fun a b hab => hab.taskEdge))

theorem validate_accepts_acyclic_witness :
    validate id List.reverse jobDiamond = .nil ∧ validate List.reverse id jobChain = .nil :=
  ⟨validate_accepts_acyclic id List.reverse isMapOrder_id isMapOrder_reverse jobDiamond
      (by decide) (by decide) (by decide) (by decide)
      (acyclic_of_rank _ rankABCD (by decide)),
    validate_accepts_acyclic List.reverse id isMapOrder_reverse isMapOrder_id jobChain
      (by decide) (by decide) (by decide) (by decide)
      (acyclic_of_rank _ rankABC (by decide))⟩

/-- C3, as stated, fails: in `jobShadowed` the first task lists the token Z, which
names no task, yet `validate` returns nil, because the second task of the same name
overwrites the first one's successor list in the map. -/
theorem unresolved_reference_shadowed_counterexample :
    (jobShadowed.Schedule ≠ "" ∨ jobShadowed.RoutePath ≠ "") ∧ jobShadowed.Tasks ≠ [] ∧
    (∃ t ∈ jobShadowed.Tasks, ∃ s ∈ tokens t.NextTasks, ¬ Resolves jobShadowed.Tasks s) ∧
    findUnresolved (taskCache jobShadowed.Tasks) (taskVertices jobShadowed.Tasks) = none ∧
    validate id id jobShadowed = .nil ∧
    ∀ s t, validate id id jobShadowed ≠ .error (.unknownTask s t) := by
  have h : validate id id jobShadowed = .nil := by decide
  refine ⟨by decide, by decide, by decide, by decide, h, ?_⟩
  intro s t hst
  rw [h] at hst
  simp at hst

/-- C3 (amended: the referencing task is the last task of its name): for a request
with a trigger, if a task that no later task shares its name with lists a token that
names no task, `validate` fails with "failed to find <s> in <t>" where `s` is a token
naming no task and `t` is the name of a task listing `s`, and never with the cycle
error, whatever the order in which the loops iterate the map. -/
theorem unresolved_reference_reported (it1 it2 : MapOrder) (h1 : IsMapOrder it1)
    (j : JobRequest) (htrig : j.Schedule ≠ "" ∨ j.RoutePath ≠ "")
    (hex : ∃ pre t post, j.Tasks = pre ++ t :: post ∧ (∀ t' ∈ post, t'.Name ≠ t.Name) ∧
      ∃ s ∈ tokens t.NextTasks, ¬ Resolves j.Tasks s) :
    ∃ s t, validate it1 it2 j = .error (.unknownTask s t) ∧
      ¬ Resolves j.Tasks s ∧ TaskEdge j.Tasks t s ∧
      (∀ em, (ValidateError.unknownTask s t).message em = "failed to find " ++ s ++ " in " ++ t) ∧
      ∀ p, validate it1 it2 j ≠ .error (.circle p) := by
  obtain ⟨pre, t, post, hsplit, hpost, s, hs, hns⟩ := hex
  have hne : j.Tasks ≠ [] := by rw [hsplit]; simp
  have hedge : MapEdge j.Tasks t.Name s :=
    ⟨tokens t.NextTasks, mem_taskVertices_of_last hsplit hpost, hs⟩
  have hsome : ∃ r, findUnresolved (taskCache j.Tasks) (it1 (taskVertices j.Tasks)) = some r := by
    cases hfu : findUnresolved (taskCache j.Tasks) (it1 (taskVertices j.Tasks)) with
    | some r => exact ⟨r, rfl⟩
    | none => exact absurd ((findUnresolved_none_iff h1 j.Tasks).mp hfu _ _ hedge) hns
  obtain ⟨⟨s', tk'⟩, hfu⟩ := hsome
  obtain ⟨ntk, hmem, hs', hc⟩ := findUnresolved_some hfu
  have hv : validate it1 it2 j = .error (.unknownTask s' tk') := by
    rw [validate_eq_check it1 it2 j htrig hne]
    exact check_of_unresolved it1 it2 j hfu
  refine ⟨s', tk', hv, ?_, ?_, fun _ => rfl, ?_⟩
  · intro hr
    rw [(taskCache_has j.Tasks s').mpr hr] at hc
    exact absurd hc (by simp)
  · exact MapEdge.taskEdge ⟨ntk, ((h1 _).mem_iff.mp hmem), hs'⟩
  · intro p hp
    rw [hv] at hp
    simp at hp

theorem unresolved_reference_reported_witness :
    ∃ s t, validate id id jobDangling = .error (.unknownTask s t) ∧
      ¬ Resolves jobDangling.Tasks s ∧ TaskEdge jobDangling.Tasks t s ∧
      (∀ em, (ValidateError.unknownTask s t).message em = "failed to find " ++ s ++ " in " ++ t) ∧
      ∀ p, validate id id jobDangling ≠ .error (.circle p) :=
  unresolved_reference_reported id id isMapOrder_id jobDangling (by decide)
    ⟨[], { Name := "A", Command := "cmd", NextTasks := "Z" }, [], by decide, by decide,
      "Z", by decide, by decide⟩

/-- C4, as stated, fails: `jobTwins` has a trigger and two tasks of the same name, and
`validate` returns nil rather than the engine's duplicate-vertex error. -/
theorem duplicate_names_accepted_counterexample :
    (jobTwins.Schedule ≠ "" ∨ jobTwins.RoutePath ≠ "") ∧
    ¬ (jobTwins.Tasks.map (fun t => t.Name)).Nodup ∧
    (∀ t ∈ jobTwins.Tasks, ∀ s ∈ tokens t.NextTasks, Resolves jobTwins.Tasks s) ∧
    validate id id jobTwins = .nil := by
  decide

/-- C4 (amended: duplicates are merged and never reach the engine as such): for a
request with a trigger in which two tasks have the same name and every successor token
names a task, `validate` returns nil or the cycle error with a closed walk of the
successor lists kept in the map; it never returns an error of the graph engine, in
particular not the duplicate-vertex error of `AddVertex`, which receives one vertex
per distinct name. -/
theorem duplicate_names_merged (it1 it2 : MapOrder) (h1 : IsMapOrder it1)
    (h2 : IsMapOrder it2) (j : JobRequest)
    (htrig : j.Schedule ≠ "" ∨ j.RoutePath ≠ "")
    (hdup : ¬ (j.Tasks.map (fun t => t.Name)).Nodup)
    (hres : ∀ t ∈ j.Tasks, ∀ s ∈ tokens t.NextTasks, Resolves j.Tasks s) :
    (validate it1 it2 j = .nil ∨
      ∃ p, validate it1 it2 j = .error (.circle p) ∧ IsCyclePath (MapEdge j.Tasks) p) ∧
    ∀ e, validate it1 it2 j ≠ .error (.engine e) := by
  have hne : j.Tasks ≠ [] := by
    intro h
    rw [h] at hdup
    exact hdup (by simp)
  have hmain : validate it1 it2 j = .nil ∨
      ∃ p, validate it1 it2 j = .error (.circle p) ∧ IsCyclePath (MapEdge j.Tasks) p := by
    rw [validate_eq_check it1 it2 j htrig hne]
    by_cases hcyc : ∃ x, Relation.TransGen (MapEdge j.Tasks) x x
    · right
      obtain ⟨p, hp⟩ := check_circle_of_cycle it1 it2 h1 h2 j hne (resolves_of_mapEdge hres) hcyc
      exact ⟨p, hp, check_circle_path it1 it2 h2 j p hp⟩
    · left
      exact check_nil_of_acyclic it1 it2 h1 h2 j hne (resolves_of_mapEdge hres)
        (fun x hx => hcyc ⟨x, hx⟩)
  refine ⟨hmain, ?_⟩
  intro e he
  rcases hmain with h | ⟨p, h, _⟩
  · rw [h] at he; simp at he
  · rw [h] at he; simp at he

theorem duplicate_names_merged_witness :
    (validate id id jobTwins = .nil ∨
      ∃ p, validate id id jobTwins = .error (.circle p) ∧
        IsCyclePath (MapEdge jobTwins.Tasks) p) ∧
    ∀ e, validate id id jobTwins ≠ .error (.engine e) :=
  duplicate_names_merged id id isMapOrder_id isMapOrder_id jobTwins
    (by decide) (by decide) (by decide)

/-- C5 (missing trigger, checked first): `validate` returns the error
"schedule or route_path must be set" if and only if `Schedule` and `RoutePath` are both
empty, whatever the task list and the iteration orders are. -/
theorem missing_trigger_iff (it1 it2 : MapOrder) (j : JobRequest) :
    (validate it1 it2 j = .error .missingTrigger ↔ j.Schedule = "" ∧ j.RoutePath = "") ∧
    ∀ em, ValidateError.missingTrigger.message em = "schedule or route_path must be set" := by
  refine ⟨?_, fun _ => rfl⟩
  constructor
  · intro h
    by_contra hno
    unfold validate at h
    rw [if_neg hno] at h
    by_cases hlen : j.Tasks.length = 0
    · rw [if_pos hlen] at h
      simp at h
    · rw [if_neg hlen] at h
      unfold checkTasksDependencyCircle at h
      simp only at h
      repeat' split at h
      all_goals simp at h
  · intro h
    unfold validate
    rw [if_pos h]

/-- C6 (empty task set): a request with a trigger and no task gets the error
"job must has at least one task", and a request with one or more tasks never gets
that error. -/
theorem empty_task_set (it1 it2 : MapOrder) (j : JobRequest) :
    ((j.Schedule ≠ "" ∨ j.RoutePath ≠ "") → j.Tasks = [] →
      validate it1 it2 j = .error .emptyTaskSet) ∧
    (j.Tasks ≠ [] → validate it1 it2 j ≠ .error .emptyTaskSet) ∧
    ∀ em, ValidateError.emptyTaskSet.message em = "job must has at least one task" := by
  refine ⟨?_, ?_, fun _ => rfl⟩
  · intro htrig hnil
    unfold validate
    have h1 : ¬ (j.Schedule = "" ∧ j.RoutePath = "") := by
      rintro ⟨ha, hb⟩
      rcases htrig with h | h
      · exact h ha
      · exact h hb
    rw [if_neg h1, hnil]
    simp
  · intro hne h
    have hlen : ¬ j.Tasks.length = 0 := fun h0 => hne (List.length_eq_zero.mp h0)
    unfold validate at h
    by_cases htrig : j.Schedule = "" ∧ j.RoutePath = ""
    · rw [if_pos htrig] at h
      simp at h
    · rw [if_neg htrig, if_neg hlen] at h
      unfold checkTasksDependencyCircle at h
      simp only at h
      repeat' split at h
      all_goals simp at h

theorem empty_task_set_witness :
    validate id id (mkJob []) = .error .emptyTaskSet ∧
    validate id id jobChain ≠ .error .emptyTaskSet :=
  ⟨(empty_task_set id id (mkJob [])).1 (by decide) (by decide),
   (empty_task_set id id jobChain).2.1 (by decide)⟩

theorem perm_three {α : Type} {a b c : α} {l : List α} (h : l.Perm [a, b, c]) :
    l = [a, b, c] ∨ l = [a, c, b] ∨ l = [b, a, c] ∨ l = [b, c, a] ∨ l = [c, a, b] ∨
      l = [c, b, a] := by
  have h1 := List.mem_permutations.mpr h
  simp [List.permutations, List.permutationsAux, List.permutationsAux.rec,
    List.permutationsAux2] at h1
  tauto

theorem validate_circle_imp_check {it1 it2 : MapOrder} {j : JobRequest} {p : List String}
    (h : validate it1 it2 j = .error (.circle p)) :
    checkTasksDependencyCircle it1 it2 j = .error (.circle p) := by
  unfold validate at h
  by_cases htrig : j.Schedule = "" ∧ j.RoutePath = ""
  · rw [if_pos htrig] at h
    simp at h
  · by_cases hlen : j.Tasks.length = 0
    · rw [if_neg htrig, if_pos hlen] at h
      simp at h
    · rw [if_neg htrig, if_neg hlen] at h
      exact h

/-- The kind of the result of `checkTasksDependencyCircle` is fixed by the request. -/
theorem check_kind (it1 it2 it1' it2' : MapOrder) (h1 : IsMapOrder it1) (h2 : IsMapOrder it2)
    (h1' : IsMapOrder it1') (h2' : IsMapOrder it2') (j : JobRequest) (hne : j.Tasks ≠ []) :
    (checkTasksDependencyCircle it1 it2 j).kind =
      (checkTasksDependencyCircle it1' it2' j).kind := by
  by_cases hres : ∀ u w, MapEdge j.Tasks u w → Resolves j.Tasks w
  · by_cases hcyc : ∃ x, Relation.TransGen (MapEdge j.Tasks) x x
    · obtain ⟨p, hp⟩ := check_circle_of_cycle it1 it2 h1 h2 j hne hres hcyc
      obtain ⟨q, hq⟩ := check_circle_of_cycle it1' it2' h1' h2' j hne hres hcyc
      rw [hp, hq]
      rfl
    · rw [check_nil_of_acyclic it1 it2 h1 h2 j hne hres (fun x hx => hcyc ⟨x, hx⟩),
        check_nil_of_acyclic it1' it2' h1' h2' j hne hres (fun x hx => hcyc ⟨x, hx⟩)]
  · cases hfu : findUnresolved (taskCache j.Tasks) (it1 (taskVertices j.Tasks)) with
    | none => exact absurd ((findUnresolved_none_iff h1 j.Tasks).mp hfu) hres
    | some r =>
      cases hfu' : findUnresolved (taskCache j.Tasks) (it1' (taskVertices j.Tasks)) with
      | none => exact absurd ((findUnresolved_none_iff h1' j.Tasks).mp hfu') hres
      | some r' =>
        obtain ⟨s, tk⟩ := r
        obtain ⟨s', tk'⟩ := r'
        rw [check_of_unresolved it1 it2 j hfu, check_of_unresolved it1' it2' j hfu']
        rfl

/-- C7, as stated, fails: `jobTwoDangling` has two unresolved references, and two calls
that iterate the map in different orders return errors with different messages. -/
theorem validate_twice_differs_counterexample :
    IsMapOrder id ∧ IsMapOrder List.reverse ∧
    validate id id jobTwoDangling = .error (.unknownTask "X" "A") ∧
    validate List.reverse id jobTwoDangling = .error (.unknownTask "Y" "B") ∧
    (ValidateError.unknownTask "X" "A").message (fun _ => "") ≠
      (ValidateError.unknownTask "Y" "B").message (fun _ => "") :=
  ⟨isMapOrder_id, isMapOrder_reverse, by decide, by decide, by decide⟩

/-- C7 (amended: the kind of the result is deterministic, the names in it are not): two
calls of `validate` on the same request, whatever the orders in which their loops
iterate the map, both return nil or both fail the same check (missing trigger, empty
task set, unresolved reference, or cycle). -/
theorem validate_kind_deterministic (it1 it2 it1' it2' : MapOrder)
    (h1 : IsMapOrder it1) (h2 : IsMapOrder it2) (h1' : IsMapOrder it1')
    (h2' : IsMapOrder it2') (j : JobRequest) :
    (validate it1 it2 j).kind = (validate it1' it2' j).kind := by
  by_cases htrig : j.Schedule = "" ∧ j.RoutePath = ""
  · unfold validate
    rw [if_pos htrig, if_pos htrig]
  · by_cases hlen : j.Tasks.length = 0
    · unfold validate
      rw [if_neg htrig, if_neg htrig, if_pos hlen, if_pos hlen]
    · have hne : j.Tasks ≠ [] := fun h => hlen (by rw [h]; rfl)
      unfold validate
      rw [if_neg htrig, if_neg htrig, if_neg hlen, if_neg hlen]
      exact check_kind it1 it2 it1' it2' h1 h2 h1' h2' j hne

theorem validate_kind_deterministic_witness :
    (validate id id jobTwoDangling).kind = (validate List.reverse List.reverse jobTwoDangling).kind :=
  validate_kind_deterministic id id List.reverse List.reverse isMapOrder_id isMapOrder_id
    isMapOrder_reverse isMapOrder_reverse jobTwoDangling

/-- C8, as stated, fails in its last part: two validations of the cycle A -> B -> C -> A
that iterate the map in different orders report different paths. -/
theorem cycle_path_differs_counterexample :
    IsMapOrder id ∧ IsMapOrder List.reverse ∧
    validate id id jobCycle = .error (.circle ["A", "B", "C", "A"]) ∧
    validate id List.reverse jobCycle = .error (.circle ["C", "A", "B", "C"]) :=
  ⟨isMapOrder_id, isMapOrder_reverse, by decide, by decide⟩

/-- C8 (amended: the path is stable only for a fixed iteration order): whenever
`validate` rejects a request with the cycle error, the path in the message is a closed
walk `w :: mid ++ [w]` of the task graph (so non-empty, with equal first and last
vertex) whose consecutive pairs `(u, v)` are successor edges; and for the tasks A -> B,
B -> C, C -> A it is one of the rotations [A, B, C, A], [B, C, A, B], [C, A, B, C],
whatever the orders in which the loops iterate the map. -/
theorem cycle_path_correct :
    (∀ (it1 it2 : MapOrder) (j : JobRequest) (p : List String), IsMapOrder it2 →
      validate it1 it2 j = .error (.circle p) →
      p ≠ [] ∧ p.head? = p.getLast? ∧ IsCyclePath (TaskEdge j.Tasks) p) ∧
    (∀ (it1 it2 : MapOrder), IsMapOrder it1 → IsMapOrder it2 →
      ∃ p, validate it1 it2 jobCycle = .error (.circle p) ∧
        (p = ["A", "B", "C", "A"] ∨ p = ["B", "C", "A", "B"] ∨ p = ["C", "A", "B", "C"])) := by
  constructor
  · intro it1 it2 j p h2 h
    have hc := check_circle_path it1 it2 h2 j p (validate_circle_imp_check h)
    obtain ⟨w, mid, rfl⟩ := hc.1
    refine ⟨by simp, ?_, ⟨⟨w, mid, rfl⟩, hc.2.imp (fun a b hab => hab.taskEdge)⟩⟩
    rw [show w :: (mid ++ [w]) = (w :: mid) ++ [w] from rfl, List.getLast?_append]
    simp
  · intro it1 it2 h1 h2
    have hres : ∀ u w, MapEdge jobCycle.Tasks u w → Resolves jobCycle.Tasks w :=
      resolves_of_mapEdge (by decide)
    have hv : validate it1 it2 jobCycle = checkTasksDependencyCircle it1 it2 jobCycle :=
      validate_eq_check it1 it2 jobCycle (by decide) (by decide)
    rw [hv, check_eq_of_resolved it1 it2 h2 jobCycle (by decide)
      ((findUnresolved_none_iff h1 jobCycle.Tasks).mpr hres)]
    have htv : taskVertices jobCycle.Tasks = [("A", ["B"]), ("B", ["C"]), ("C", ["A"])] := by
      decide
    have hperm := h2 (taskVertices jobCycle.Tasks)
    rw [htv] at hperm
    have hg : graphOf it2 jobCycle =
        { capacity := 3, vertices := it2 (taskVertices jobCycle.Tasks) } := rfl
    rw [hg, htv]
    rcases perm_three hperm with h | h | h | h | h | h <;> rw [h]
    · exact ⟨["A", "B", "C", "A"], by decide, by decide⟩
    · exact ⟨["A", "B", "C", "A"], by decide, by decide⟩
    · exact ⟨["B", "C", "A", "B"], by decide, by decide⟩
    · exact ⟨["B", "C", "A", "B"], by decide, by decide⟩
    · exact ⟨["C", "A", "B", "C"], by decide, by decide⟩
    · exact ⟨["C", "A", "B", "C"], by decide, by decide⟩

theorem cycle_path_correct_witness :
    (["A", "B", "C", "A"] ≠ [] ∧
      ["A", "B", "C", "A"].head? = ["A", "B", "C", "A"].getLast? ∧
      IsCyclePath (TaskEdge jobCycle.Tasks) ["A", "B", "C", "A"]) ∧
    ∃ p, validate List.reverse List.reverse jobCycle = .error (.circle p) ∧
      (p = ["A", "B", "C", "A"] ∨ p = ["B", "C", "A", "B"] ∨ p = ["C", "A", "B", "C"]) :=
  ⟨cycle_path_correct.1 id id jobCycle ["A", "B", "C", "A"] isMapOrder_id (by decide),
   cycle_path_correct.2 List.reverse List.reverse isMapOrder_reverse isMapOrder_reverse⟩

/-- C9 (self-loop detection): for a request with a trigger, pairwise distinct task
names and every successor token naming a task, a task whose `NextTasks` has the task's
own name among its tokens makes `validate` fail with the cycle error, whatever the
orders in which the loops iterate the map. -/
theorem self_loop_detected (it1 it2 : MapOrder) (h1 : IsMapOrder it1) (h2 : IsMapOrder it2)
    (j : JobRequest) (htrig : j.Schedule ≠ "" ∨ j.RoutePath ≠ "")
    (hd : (j.Tasks.map (fun t => t.Name)).Nodup)
    (hres : ∀ t ∈ j.Tasks, ∀ s ∈ tokens t.NextTasks, Resolves j.Tasks s)
    (hself : ∃ t ∈ j.Tasks, t.Name ∈ tokens t.NextTasks) :
    ∃ p, validate it1 it2 j = .error (.circle p) ∧
      ∀ em, (ValidateError.circle p).message em =
        "found circle in this job, circle path: " ++ renderPath p := by
  obtain ⟨t, ht, hself⟩ := hself
  have hne : j.Tasks ≠ [] := List.ne_nil_of_mem ht
  obtain ⟨p, hp⟩ := validate_circle_of_cycle it1 it2 h1 h2 j htrig hne hd hres
    ⟨t.Name, Relation.TransGen.single ⟨t, ht, rfl, hself⟩⟩
  exact ⟨p, hp, fun _ => rfl⟩

theorem self_loop_detected_witness :
    ∃ p, validate id id jobSelfLoop = .error (.circle p) ∧
      ∀ em, (ValidateError.circle p).message em =
        "found circle in this job, circle path: " ++ renderPath p :=
  self_loop_detected id id isMapOrder_id isMapOrder_id jobSelfLoop
    (by decide) (by decide) (by decide) (by decide)

/-! ## Persistence -/

theorem saveTasks_fail (b : StoreBehaviour) :
    ∀ (tasks : List TaskRequest) (tx : Store) (k n : Nat) (e : String),
      k ≤ n → n < k + tasks.length → b.insertErr n = some e →
      (∀ m, k ≤ m → m < n → b.insertErr m = none) →
      (saveTasks b tx k tasks).1 = some e ∧
      (saveTasks b tx k tasks).2.committed = tx.committed ∧
      (saveTasks b tx k tasks).2.pending = [] ∧
      ∃ done t rest, tasks = done ++ t :: rest ∧ done.length = n - k ∧
        (saveTasks b tx k tasks).2.log =
          tx.log ++ done.map (fun t => Op.insert (taskRow b t) none) ++
            [Op.insert (taskRow b t) (some e), Op.rollback] := by
  intro tasks
  induction tasks with
  | nil => intro tx k n e hk hn; simp at hn; omega
  | cons t ts ih =>
    intro tx k n e hk hn hfail hfirst
    by_cases hkn : k = n
    · subst hkn
      unfold saveTasks
      rw [hfail]
      refine ⟨rfl, rfl, rfl, [], t, ts, rfl, by simp, ?_⟩
      simp [Store.Rollback, Store.Create]
    · have hk0 : b.insertErr k = none := hfirst k (le_refl k) (by omega)
      have hn' : n < k + 1 + ts.length := by simp at hn; omega
      obtain ⟨h1, h2, h3, done, t', rest, hsplit, hlen, hlog⟩ :=
        ih (tx.Create (taskRow b t) none) (k + 1) n e (by omega) hn' hfail
          (fun m hm1 hm2 => hfirst m (by omega) hm2)
      unfold saveTasks
      rw [hk0]
      refine ⟨h1, h2, h3, t :: done, t', rest, by rw [hsplit]; rfl, by simp [hlen]; omega, ?_⟩
      rw [hlog]
      simp [Store.Create]

/-- C10 (atomic persistence on failure): for every request and every behaviour of the
store, if the insert number `n` (0 for the Job, `n` for the `n`-th Task) is the first
one the store rejects, `save` returns exactly that insert's error, issues the begin,
the `n` earlier inserts, the rejected insert and a rollback and nothing else (no
further insert, no commit), and leaves the committed rows as they were, with nothing
pending. -/
theorem save_atomic_on_failure (b : StoreBehaviour) (db : Store) (j : JobRequest)
    (n : Nat) (e : String) (hn : n ≤ j.Tasks.length) (hfail : b.insertErr n = some e)
    (hfirst : ∀ m, m < n → b.insertErr m = none) :
    (save b db j).1 = some e ∧
    (save b db j).2.committed = db.committed ∧
    (save b db j).2.pending = [] ∧
    (∃ done row rest, rowsOf b j = done ++ row :: rest ∧ done.length = n ∧
      (save b db j).2.log =
        db.log ++ [Op.begin] ++ done.map (fun r => Op.insert r none) ++
          [Op.insert row (some e), Op.rollback]) ∧
    ∀ a, Op.commit a ∈ (save b db j).2.log → Op.commit a ∈ db.log := by
  have main : (save b db j).1 = some e ∧
      (save b db j).2.committed = db.committed ∧
      (save b db j).2.pending = [] ∧
      (∃ done row rest, rowsOf b j = done ++ row :: rest ∧ done.length = n ∧
        (save b db j).2.log =
          db.log ++ [Op.begin] ++ done.map (fun r => Op.insert r none) ++
            [Op.insert row (some e), Op.rollback]) := by
    by_cases h0 : n = 0
    · subst h0
      have hs : save b db j = (some e, (db.Begin.Create (jobRow b j) (some e)).Rollback) := by
        unfold save
        simp only [hfail]
      rw [hs]
      refine ⟨rfl, rfl, rfl, [], jobRow b j, j.Tasks.map (taskRow b), rfl, rfl, ?_⟩
      simp [Store.Rollback, Store.Create, Store.Begin]
    · have hj : b.insertErr 0 = none := hfirst 0 (by omega)
      obtain ⟨h1, h2, h3, done, t, rest, hsplit, hlen, hlog⟩ :=
        saveTasks_fail b j.Tasks (db.Begin.Create (jobRow b j) none) 1 n e (by omega)
          (by omega) hfail (fun m _ hm2 => hfirst m hm2)
      have hs : save b db j = saveTasks b (db.Begin.Create (jobRow b j) none) 1 j.Tasks := by
        unfold save
        simp only [hj]
      rw [hs]
      refine ⟨h1, h2, h3, jobRow b j :: done.map (taskRow b), taskRow b t,
        rest.map (taskRow b), ?_, by simp [hlen]; omega, ?_⟩
      · unfold rowsOf
        rw [hsplit]
        simp
      · rw [hlog]
        simp [Store.Create, Store.Begin, Function.comp_def]
  refine ⟨main.1, main.2.1, main.2.2.1, main.2.2.2, ?_⟩
  obtain ⟨done, row, rest, _, _, hlog⟩ := main.2.2.2
  intro a ha
  rw [hlog] at ha
  simp at ha
  exact ha

theorem save_atomic_on_failure_witness :
    (save failSecondTask someStore jobChain).1 = some "duplicate entry" ∧
    (save failSecondTask someStore jobChain).2.committed = someStore.committed ∧
    (save failSecondTask someStore jobChain).2.pending = [] ∧
    (∃ done row rest, rowsOf failSecondTask jobChain = done ++ row :: rest ∧ done.length = 2 ∧
      (save failSecondTask someStore jobChain).2.log =
        someStore.log ++ [Op.begin] ++ done.map (fun r => Op.insert r none) ++
          [Op.insert row (some "duplicate entry"), Op.rollback]) ∧
    ∀ a, Op.commit a ∈ (save failSecondTask someStore jobChain).2.log →
      Op.commit a ∈ someStore.log :=
  save_atomic_on_failure failSecondTask someStore jobChain 2 "duplicate entry"
    (by decide) (by decide) (by decide)

/-! ## Tokens -/

theorem splitCommaChars_ne_nil : ∀ cs : List Char, splitCommaChars cs ≠ [] := by
  intro cs
  induction cs with
  | nil => simp [splitCommaChars]
  | cons c cs ih =>
    unfold splitCommaChars
    split_ifs
    · simp
    · split <;> simp

theorem splitCommaChars_mem :
    ∀ (cs p : List Char), p ∈ splitCommaChars cs → ∀ c ∈ p, c ∈ cs ∧ c ≠ ',' := by
  intro cs
  induction cs with
  | nil =>
    intro p hp c hc
    simp only [splitCommaChars, List.mem_singleton] at hp
    subst hp
    simp at hc
  | cons a cs ih =>
    intro p hp c hc
    unfold splitCommaChars at hp
    split_ifs at hp with ha
    · rcases List.mem_cons.mp hp with rfl | hp
      · simp at hc
      · exact ⟨List.mem_cons_of_mem _ (ih p hp c hc).1, (ih p hp c hc).2⟩
    · split at hp
      · rename_i hnil
        exact absurd hnil (splitCommaChars_ne_nil cs)
      · rename_i q qs hq
        have hqmem : q ∈ splitCommaChars cs := by rw [hq]; exact List.mem_cons_self _ _
        rcases List.mem_cons.mp hp with rfl | hp
        · rcases List.mem_cons.mp hc with rfl | hc
          · exact ⟨List.mem_cons_self _ _, ha⟩
          · exact ⟨List.mem_cons_of_mem _ (ih q hqmem c hc).1, (ih q hqmem c hc).2⟩
        · have hpmem : p ∈ splitCommaChars cs := by rw [hq]; exact List.mem_cons_of_mem _ hp
          exact ⟨List.mem_cons_of_mem _ (ih p hpmem c hc).1, (ih p hpmem c hc).2⟩

theorem trimSpaceChars_eq_nil {p : List Char} (h : ∀ c ∈ p, isSpace c = true) :
    trimSpaceChars p = [] := by
  unfold trimSpaceChars
  rw [List.dropWhile_eq_nil_iff.mpr h]
  rfl

theorem trimSpaceChars_subset (p : List Char) : trimSpaceChars p ⊆ p := by
  intro c hc
  unfold trimSpaceChars at hc
  rw [List.mem_reverse] at hc
  have h1 := List.dropWhile_subset isSpace hc
  rw [List.mem_reverse] at h1
  exact List.dropWhile_subset isSpace h1

theorem trimSpaceChars_getLast (p : List Char) (c : Char)
    (h : (trimSpaceChars p).getLast? = some c) : isSpace c = false := by
  unfold trimSpaceChars at h
  rw [List.getLast?_reverse] at h
  have := List.head?_dropWhile_not isSpace (p.dropWhile isSpace).reverse
  rw [h] at this
  exact this

theorem trimSpaceChars_head (p : List Char) (c : Char)
    (h : (trimSpaceChars p).head? = some c) : isSpace c = false := by
  unfold trimSpaceChars at h
  have hsuf : (p.dropWhile isSpace).reverse.dropWhile isSpace <:+ (p.dropWhile isSpace).reverse :=
    List.dropWhile_suffix _
  have hpre : ((p.dropWhile isSpace).reverse.dropWhile isSpace).reverse <+: p.dropWhile isSpace := by
    have := List.reverse_prefix.mpr hsuf
    simpa using this
  obtain ⟨rest, hrest⟩ := hpre
  have hd : (p.dropWhile isSpace).head? = some c := by
    rw [← hrest, List.head?_append, h]
    rfl
  have := List.head?_dropWhile_not isSpace p
  rw [hd] at this
  exact this

theorem mem_tokens_iff (x s : String) :
    s ∈ tokens x ↔
      ∃ p ∈ splitCommaChars x.data, s = String.mk (trimSpaceChars p) ∧ trimSpaceChars p ≠ [] := by
  unfold tokens splitComma trimSpace
  simp only [List.mem_filter, List.mem_map, exists_exists_and_eq_and, decide_eq_true_eq]
  constructor
  · rintro ⟨⟨p, hp, rfl⟩, hlen⟩
    refine ⟨p, hp, rfl, ?_⟩
    intro hnil
    apply hlen
    rw [hnil]
    rfl
  · rintro ⟨p, hp, rfl, hne⟩
    refine ⟨⟨p, hp, rfl⟩, ?_⟩
    intro hlen
    apply hne
    exact List.length_eq_zero.mp hlen

theorem tokens_eq_nil_of_blank {x : String} (h : IsBlank x) : tokens x = [] := by
  rw [List.eq_nil_iff_forall_not_mem]
  intro s hs
  obtain ⟨p, hp, _, hne⟩ := (mem_tokens_iff x s).mp hs
  apply hne
  apply trimSpaceChars_eq_nil
  intro c hc
  obtain ⟨hcx, hcomma⟩ := splitCommaChars_mem x.data p hp c hc
  rcases h c hcx with h1 | h1
  · exact h1
  · exact absurd h1 hcomma

theorem tokens_shaped {x s : String} (hs : s ∈ tokens x) : IsTokenShaped s := by
  obtain ⟨p, hp, rfl, hne⟩ := (mem_tokens_iff x _).mp hs
  refine ⟨?_, ?_, ?_, ?_⟩
  · intro h
    apply hne
    have := congrArg String.data h
    exact this
  · intro hc
    exact (splitCommaChars_mem x.data p hp ',' (trimSpaceChars_subset p hc)).2 rfl
  · intro c hc
    exact trimSpaceChars_head p c hc
  · intro c hc
    exact trimSpaceChars_getLast p c hc

theorem taskVertices_eq_foldl_map (tasks : List TaskRequest) :
    taskVertices tasks =
      (tasks.map (fun t => (t.Name, tokens t.NextTasks))).foldl
        (fun m e => GoMap.set m e.1 e.2) [] := by
  unfold taskVertices
  rw [List.foldl_map]

theorem taskCache_eq_foldl_map (tasks : List TaskRequest) :
    taskCache tasks =
      (tasks.map (fun t => (t.Name, tokens t.NextTasks))).foldl
        (fun m e => GoMap.set m e.1 true) [] := by
  unfold taskCache
  rw [List.foldl_map]

/-- The result of `validate` is fixed by the two trigger fields and by the name and
the token list of every task. -/
theorem validate_congr (it1 it2 : MapOrder) (j j' : JobRequest)
    (hs : j.Schedule = j'.Schedule) (hr : j.RoutePath = j'.RoutePath)
    (ht : j.Tasks.map (fun t => (t.Name, tokens t.NextTasks)) =
      j'.Tasks.map (fun t => (t.Name, tokens t.NextTasks))) :
    validate it1 it2 j = validate it1 it2 j' := by
  have hlen : j.Tasks.length = j'.Tasks.length := by
    have := congrArg List.length ht
    simpa using this
  have hv : taskVertices j.Tasks = taskVertices j'.Tasks := by
    rw [taskVertices_eq_foldl_map, taskVertices_eq_foldl_map, ht]
  have hc : taskCache j.Tasks = taskCache j'.Tasks := by
    rw [taskCache_eq_foldl_map, taskCache_eq_foldl_map, ht]
  unfold validate checkTasksDependencyCircle
  simp only [hs, hr, hlen, hv, hc]

/-- C11, as stated, fails: `jobNoTask` has a trigger, pairwise distinct task names and
only blank successor lists (it has no task at all), and `validate` returns the
empty-task-set error, not nil. -/
theorem blank_successors_no_task_counterexample :
    (jobNoTask.Schedule ≠ "" ∨ jobNoTask.RoutePath ≠ "") ∧
    (jobNoTask.Tasks.map (fun t => t.Name)).Nodup ∧
    (∀ t ∈ jobNoTask.Tasks, IsBlank t.NextTasks) ∧
    validate id id jobNoTask = .error .emptyTaskSet ∧
    validate id id jobNoTask ≠ .nil := by
  decide

/-- C11 (amended: the request has at least one task): `validate` depends on the
`NextTasks` of a task only through its list of trimmed, non-empty comma-separated
tokens; so for a request with a trigger, at least one task and pairwise distinct task
names in which every `NextTasks` consists solely of white space and commas, `validate`
returns nil, also when a task is named "", whatever the orders in which the loops
iterate the map. -/
theorem blank_successors_ignored :
    (∀ (it1 it2 : MapOrder) (j j' : JobRequest),
      j.Schedule = j'.Schedule → j.RoutePath = j'.RoutePath →
      j.Tasks.map (fun t => (t.Name, tokens t.NextTasks)) =
        j'.Tasks.map (fun t => (t.Name, tokens t.NextTasks)) →
      validate it1 it2 j = validate it1 it2 j') ∧
    (∀ (it1 it2 : MapOrder) (j : JobRequest), IsMapOrder it1 → IsMapOrder it2 →
      (j.Schedule ≠ "" ∨ j.RoutePath ≠ "") → j.Tasks ≠ [] →
      (j.Tasks.map (fun t => t.Name)).Nodup →
      (∀ t ∈ j.Tasks, IsBlank t.NextTasks) →
      validate it1 it2 j = .nil) := by
  refine ⟨validate_congr, ?_⟩
  intro it1 it2 j h1 h2 htrig hne _ hblank
  have hno : ∀ u w, ¬ MapEdge j.Tasks u w := by
    intro u w h
    obtain ⟨t, ht, _, hw⟩ := h.taskEdge
    rw [tokens_eq_nil_of_blank (hblank t ht)] at hw
    simp at hw
  rw [validate_eq_check it1 it2 j htrig hne]
  apply check_nil_of_acyclic it1 it2 h1 h2 j hne
  · intro u w h
    exact absurd h (hno u w)
  · intro x hx
    obtain ⟨w, hxw, _⟩ := Relation.TransGen.head'_iff.mp hx
    exact hno x w hxw

theorem blank_successors_ignored_witness :
    validate id List.reverse jobBlank = validate id List.reverse jobBlankPlain ∧
    validate List.reverse id jobBlank = .nil :=
  ⟨blank_successors_ignored.1 id List.reverse jobBlank jobBlankPlain
      (by decide) (by decide) (by decide),
   blank_successors_ignored.2 List.reverse id jobBlank isMapOrder_reverse isMapOrder_id
      (by decide) (by decide) (by decide) (by decide)⟩

/-- C12 (both triggers accepted): for a request with `Schedule` and `RoutePath` both
non-empty, `validate` returns the same result as for the request with `RoutePath`
cleared and as for the request with `Schedule` cleared (the map being iterated in the
same orders); in particular it returns nil when one of those does. -/
theorem both_triggers_accepted (it1 it2 : MapOrder) (j : JobRequest)
    (hs : j.Schedule ≠ "") (hr : j.RoutePath ≠ "") :
    validate it1 it2 j = validate it1 it2 { j with RoutePath := "" } ∧
    validate it1 it2 j = validate it1 it2 { j with Schedule := "" } ∧
    (validate it1 it2 { j with RoutePath := "" } = .nil → validate it1 it2 j = .nil) ∧
    (validate it1 it2 { j with Schedule := "" } = .nil → validate it1 it2 j = .nil) := by
  have h1 : validate it1 it2 j = validate it1 it2 { j with RoutePath := "" } := by
    unfold validate checkTasksDependencyCircle
    simp [hs]
  have h2 : validate it1 it2 j = validate it1 it2 { j with Schedule := "" } := by
    unfold validate checkTasksDependencyCircle
    simp [hr]
  exact ⟨h1, h2, fun h => h1.trans h, fun h => h2.trans h⟩

theorem both_triggers_accepted_witness :
    validate id id jobBothTriggers = validate id id { jobBothTriggers with RoutePath := "" } ∧
    validate id id jobBothTriggers = validate id id { jobBothTriggers with Schedule := "" } ∧
    validate id id jobBothTriggers = .nil :=
  ⟨(both_triggers_accepted id id jobBothTriggers (by decide) (by decide)).1,
   (both_triggers_accepted id id jobBothTriggers (by decide) (by decide)).2.1,
   (both_triggers_accepted id id jobBothTriggers (by decide) (by decide)).2.2.1 (by decide)⟩

/-- No error of the graph engine reaches the caller of `validate`. -/
theorem validate_ne_engine (it1 it2 : MapOrder) (h2 : IsMapOrder it2) (j : JobRequest)
    (e : DagError) : validate it1 it2 j ≠ .error (.engine e) := by
  intro h
  unfold validate at h
  by_cases htrig : j.Schedule = "" ∧ j.RoutePath = ""
  · rw [if_pos htrig] at h
    simp at h
  · by_cases hlen : j.Tasks.length = 0
    · rw [if_neg htrig, if_pos hlen] at h
      simp at h
    · rw [if_neg htrig, if_neg hlen] at h
      have hne : j.Tasks ≠ [] := fun h0 => hlen (by rw [h0]; rfl)
      cases hfu : findUnresolved (taskCache j.Tasks) (it1 (taskVertices j.Tasks)) with
      | some r =>
        obtain ⟨s, tk⟩ := r
        rw [check_of_unresolved it1 it2 j hfu] at h
        simp at h
      | none =>
        rw [check_eq_of_resolved it1 it2 h2 j hne hfu] at h
        cases hrun : (graphOf it2 j).run <;> rw [hrun] at h <;> simp at h

/-- C13 (capacity errors unreachable): `validate` never returns the engine's
invalid-capacity error nor its capacity-exceeded error, whatever the orders in which
the loops iterate the map: the graph is built only for a non-empty task list, and the
map hands over at most as many vertices as there are tasks. -/
theorem capacity_errors_unreachable (it1 it2 : MapOrder) (h2 : IsMapOrder it2)
    (j : JobRequest) :
    validate it1 it2 j ≠ .error (.engine .invalidCapacity) ∧
    validate it1 it2 j ≠ .error (.engine .capacityExceeded) ∧
    (it2 (taskVertices j.Tasks)).length ≤ j.Tasks.length ∧
    (j.Tasks ≠ [] → ∃ g, DAG.New j.Tasks.length = .ok g ∧ g.capacity = j.Tasks.length) := by
  refine ⟨validate_ne_engine it1 it2 h2 j _, validate_ne_engine it1 it2 h2 j _, ?_, ?_⟩
  · rw [(h2 _).length_eq]
    exact taskVertices_length_le j.Tasks
  · intro hne
    have hlen : j.Tasks.length ≠ 0 := fun h => hne (List.length_eq_zero.mp h)
    exact ⟨{ capacity := j.Tasks.length, vertices := [] }, by simp [DAG.New, hlen], rfl⟩

theorem capacity_errors_unreachable_witness :
    validate id List.reverse jobTwins ≠ .error (.engine .invalidCapacity) ∧
    validate id List.reverse jobTwins ≠ .error (.engine .capacityExceeded) ∧
    (List.reverse (taskVertices jobTwins.Tasks)).length ≤ jobTwins.Tasks.length ∧
    (jobTwins.Tasks ≠ [] →
      ∃ g, DAG.New jobTwins.Tasks.length = .ok g ∧ g.capacity = jobTwins.Tasks.length) :=
  capacity_errors_unreachable id List.reverse isMapOrder_reverse jobTwins

theorem saveTasks_ok (b : StoreBehaviour) :
    ∀ (tasks : List TaskRequest) (tx : Store) (k : Nat),
      (∀ m, k ≤ m → m < k + tasks.length → b.insertErr m = none) →
      saveTasks b tx k tasks =
        (b.commitErr,
          Store.Commit
            { committed := tx.committed,
              pending := tx.pending ++ tasks.map (taskRow b),
              log := tx.log ++ tasks.map (fun t => Op.insert (taskRow b t) none) }
            b.commitErr) := by
  intro tasks
  induction tasks with
  | nil => intro tx k _; simp [saveTasks]
  | cons t ts ih =>
    intro tx k h
    have hk : b.insertErr k = none := h k (le_refl k) (by simp)
    unfold saveTasks
    rw [hk]
    simp only
    rw [ih (tx.Create (taskRow b t) none) (k + 1)
      (fun m hm1 hm2 => h m (by omega) (by simp only [List.length_cons]; omega))]
    simp [Store.Create]

/-- C14 (rows written on success): when the store accepts every insert and the commit,
`save` issues, inside one transaction, the insert of the Job row followed by the
inserts of one Task row per task in request order, each Task row carrying the identity
given to the Job and the `Name`, `Command` and `NextTasks` of its task unchanged; it
then commits, returns nil, and exactly these rows are added to the committed rows. -/
theorem save_rows_on_success (b : StoreBehaviour) (db : Store) (j : JobRequest)
    (hins : ∀ m, m ≤ j.Tasks.length → b.insertErr m = none) (hcommit : b.commitErr = none) :
    (save b db j).1 = none ∧
    rowsOf b j = Row.job b.jobID j.Name j.Schedule j.RoutePath ::
      j.Tasks.map (fun t => Row.task b.jobID t.Name t.Command t.NextTasks) ∧
    (save b db j).2.log =
      db.log ++ [Op.begin] ++ (rowsOf b j).map (fun r => Op.insert r none) ++
        [Op.commit none] ∧
    (save b db j).2.committed = db.committed ++ rowsOf b j ∧
    (save b db j).2.pending = [] := by
  have h0 : b.insertErr 0 = none := hins 0 (Nat.zero_le _)
  have hs : save b db j = saveTasks b (db.Begin.Create (jobRow b j) none) 1 j.Tasks := by
    unfold save
    simp only [h0]
  rw [hs, saveTasks_ok b j.Tasks _ 1 (fun m _ hm2 => hins m (by omega)), hcommit]
  refine ⟨rfl, rfl, ?_, ?_, rfl⟩
  · simp [Store.Commit, Store.Create, Store.Begin, rowsOf, Function.comp_def]
  · simp [Store.Commit, Store.Create, Store.Begin, rowsOf]

theorem save_rows_on_success_witness :
    (save acceptAll someStore jobChain).1 = none ∧
    rowsOf acceptAll jobChain =
      Row.job acceptAll.jobID jobChain.Name jobChain.Schedule jobChain.RoutePath ::
        jobChain.Tasks.map (fun t => Row.task acceptAll.jobID t.Name t.Command t.NextTasks) ∧
    (save acceptAll someStore jobChain).2.log =
      someStore.log ++ [Op.begin] ++ (rowsOf acceptAll jobChain).map (fun r => Op.insert r none) ++
        [Op.commit none] ∧
    (save acceptAll someStore jobChain).2.committed =
      someStore.committed ++ rowsOf acceptAll jobChain ∧
    (save acceptAll someStore jobChain).2.pending = [] :=
  save_rows_on_success acceptAll someStore jobChain (fun _ _ => rfl) rfl

/-! ## The handler -/

/-- C15 (no persistence before validation succeeds): when `validate` returns an error
for the decoded request, `jobsNew` leaves the store untouched (no operation is issued,
`save` is not called) and answers with status 400 and the body
`{"error": <message of that error>}`; it answers `{"msg": "ok"}` only if the request was
decoded, `validate` returned nil and `save` returned nil; and it always answers. -/
theorem no_persistence_before_validation (it1 it2 : MapOrder) (em : DagError → String)
    (b : StoreBehaviour) (db : Store) :
    (∀ (jr : JobRequest) (e : ValidateError), validate it1 it2 jr = .error e →
      jobsNew it1 it2 em b db (.ok jr) =
        some ({ status := 400, key := "error", value := e.message em }, db)) ∧
    (∀ (bind : Except String JobRequest) (db' : Store),
      jobsNew it1 it2 em b db bind = some (responseOK, db') →
      ∃ jr, bind = .ok jr ∧ validate it1 it2 jr = .nil ∧ save b db jr = (none, db')) ∧
    (∀ bind : Except String JobRequest, jobsNew it1 it2 em b db bind ≠ none) := by
  refine ⟨?_, ?_, ?_⟩
  · intro jr e h
    unfold jobsNew
    simp only [h]
    rfl
  · intro bind db' h
    unfold jobsNew at h
    cases bind with
    | error e =>
      simp only [Option.some.injEq, Prod.mk.injEq] at h
      exact absurd (congrArg Response.status h.1) (by simp [responseBadRequest, responseOK])
    | ok jr =>
      refine ⟨jr, rfl, ?_⟩
      simp only at h
      cases hv : validate it1 it2 jr with
      | exhausted => rw [hv] at h; simp at h
      | error e =>
        rw [hv] at h
        simp only [Option.some.injEq, Prod.mk.injEq] at h
        exact absurd (congrArg Response.status h.1) (by simp [responseBadRequest, responseOK])
      | nil =>
        rw [hv] at h
        simp only at h
        refine ⟨rfl, ?_⟩
        cases hsv : save b db jr with
        | mk r st =>
          rw [hsv] at h
          cases r with
          | some e =>
            simp only [Option.some.injEq, Prod.mk.injEq] at h
            exact absurd (congrArg Response.status h.1) (by simp [responseBadRequest, responseOK])
          | none =>
            simp only [Option.some.injEq, Prod.mk.injEq, true_and] at h
            rw [h]
  · intro bind h
    unfold jobsNew at h
    cases bind with
    | error e => simp at h
    | ok jr =>
      simp only at h
      cases hv : validate it1 it2 jr with
      | exhausted => exact validate_ne_exhausted it1 it2 jr hv
      | error e => rw [hv] at h; simp at h
      | nil =>
        rw [hv] at h
        simp only at h
        cases hsv : save b db jr with
        | mk r st =>
          rw [hsv] at h
          cases r <;> simp at h

theorem no_persistence_before_validation_witness :
    jobsNew id id (fun _ => "") acceptAll someStore (.ok jobDangling) =
      some ({ status := 400, key := "error", value := "failed to find Z in A" }, someStore) :=
  (no_persistence_before_validation id id (fun _ => "") acceptAll someStore).1 jobDangling
    (.unknownTask "Z" "A") (by decide)

/-! ## Names and tokens -/

/-- An unresolved token of a task that is the last of its name is reported. -/
theorem validate_unknownTask_of_last (it1 it2 : MapOrder) (h1 : IsMapOrder it1)
    (j : JobRequest) (htrig : j.Schedule ≠ "" ∨ j.RoutePath ≠ "")
    (hex : ∃ pre t post, j.Tasks = pre ++ t :: post ∧ (∀ t' ∈ post, t'.Name ≠ t.Name) ∧
      ∃ s ∈ tokens t.NextTasks, ¬ Resolves j.Tasks s) :
    ∃ s t, validate it1 it2 j = .error (.unknownTask s t) ∧
      ¬ Resolves j.Tasks s ∧ TaskEdge j.Tasks t s := by
  obtain ⟨pre, t, post, hsplit, hpost, s, hs, hns⟩ := hex
  have hne : j.Tasks ≠ [] := by rw [hsplit]; simp
  have hedge : MapEdge j.Tasks t.Name s :=
    ⟨tokens t.NextTasks, mem_taskVertices_of_last hsplit hpost, hs⟩
  cases hfu : findUnresolved (taskCache j.Tasks) (it1 (taskVertices j.Tasks)) with
  | none => exact absurd ((findUnresolved_none_iff h1 j.Tasks).mp hfu _ _ hedge) hns
  | some r =>
    obtain ⟨s', tk'⟩ := r
    obtain ⟨ntk, hmem, hs', hc⟩ := findUnresolved_some hfu
    refine ⟨s', tk', ?_, ?_, ?_⟩
    · rw [validate_eq_check it1 it2 j htrig hne]
      exact check_of_unresolved it1 it2 j hfu
    · intro hr
      rw [(taskCache_has j.Tasks s').mpr hr] at hc
      exact absurd hc (by simp)
    · exact MapEdge.taskEdge ⟨ntk, ((h1 _).mem_iff.mp hmem), hs'⟩

/-- C17, as stated, fails: in `jobSpacedShadowed` the first task lists the token B,
which is the name of no task (the candidate is named " B"), yet `validate` returns
nil, because a later task of the same name overwrites that successor list. -/
theorem untrimmed_name_shadowed_counterexample :
    (jobSpacedShadowed.Schedule ≠ "" ∨ jobSpacedShadowed.RoutePath ≠ "") ∧
    (∃ t ∈ jobSpacedShadowed.Tasks, ∃ s ∈ tokens t.NextTasks,
      ∀ t' ∈ jobSpacedShadowed.Tasks, t'.Name ≠ s) ∧
    validate id id jobSpacedShadowed = .nil ∧
    ∀ s t, validate id id jobSpacedShadowed ≠ .error (.unknownTask s t) := by
  have h : validate id id jobSpacedShadowed = .nil := by decide
  refine ⟨by decide, by decide, h, ?_⟩
  intro s t hst
  rw [h] at hst
  simp at hst

/-- C17 (amended: the referencing task is the last task of its name): a token
resolves exactly when some task's `Name` equals it verbatim; so for a request with a
trigger in which a task that no later task shares its name with lists a token equal to
no task `Name`, `validate` fails with "failed to find <s> in <t>" for a token `s` equal
to no task `Name` and the name `t` of a task listing it, whatever the orders in which
the loops iterate the map; and every successor edge ends in a name that is non-empty,
has no comma and has no white space at either end, so a task whose `Name` is not of
that shape is the target of no edge. -/
theorem tokens_trimmed_names_verbatim :
    (∀ (tasks : List TaskRequest) (s : String),
      (taskCache tasks).has s = true ↔ ∃ t ∈ tasks, t.Name = s) ∧
    (∀ (it1 it2 : MapOrder) (j : JobRequest), IsMapOrder it1 →
      (j.Schedule ≠ "" ∨ j.RoutePath ≠ "") →
      (∃ pre t post, j.Tasks = pre ++ t :: post ∧ (∀ t' ∈ post, t'.Name ≠ t.Name) ∧
        ∃ s ∈ tokens t.NextTasks, ∀ t' ∈ j.Tasks, t'.Name ≠ s) →
      ∃ s t, validate it1 it2 j = .error (.unknownTask s t) ∧
        (∀ t' ∈ j.Tasks, t'.Name ≠ s) ∧
        (∃ tk ∈ j.Tasks, tk.Name = t ∧ s ∈ tokens tk.NextTasks) ∧
        ∀ em, (ValidateError.unknownTask s t).message em =
          "failed to find " ++ s ++ " in " ++ t) ∧
    (∀ (tasks : List TaskRequest) (u w : String), TaskEdge tasks u w → IsTokenShaped w) ∧
    (∀ (tasks : List TaskRequest) (t : TaskRequest), ¬ IsTokenShaped t.Name →
      ∀ u, ¬ TaskEdge tasks u t.Name) := by
  refine ⟨taskCache_has, ?_, ?_, ?_⟩
  · intro it1 it2 j h1 htrig hex
    obtain ⟨pre, t, post, hsplit, hpost, s, hs, hns⟩ := hex
    obtain ⟨s', t', hv, hnr, hedge⟩ := validate_unknownTask_of_last it1 it2 h1 j htrig
      ⟨pre, t, post, hsplit, hpost, s, hs, fun ⟨t0, ht0, hn0⟩ => hns t0 ht0 hn0⟩
    exact ⟨s', t', hv, fun t0 ht0 hn0 => hnr ⟨t0, ht0, hn0⟩, hedge, fun _ => rfl⟩
  · rintro tasks u w ⟨t, _, _, hw⟩
    exact tokens_shaped hw
  · rintro tasks t hshape u ⟨t0, _, _, hw⟩
    exact hshape (tokens_shaped hw)

theorem tokens_trimmed_names_verbatim_witness :
    (∃ s t, validate id id jobSpacedName = .error (.unknownTask s t) ∧
      (∀ t' ∈ jobSpacedName.Tasks, t'.Name ≠ s) ∧
      (∃ tk ∈ jobSpacedName.Tasks, tk.Name = t ∧ s ∈ tokens tk.NextTasks) ∧
      ∀ em, (ValidateError.unknownTask s t).message em =
        "failed to find " ++ s ++ " in " ++ t) ∧
    (∃ s t, validate id id jobCommaName = .error (.unknownTask s t) ∧
      (∀ t' ∈ jobCommaName.Tasks, t'.Name ≠ s) ∧
      (∃ tk ∈ jobCommaName.Tasks, tk.Name = t ∧ s ∈ tokens tk.NextTasks) ∧
      ∀ em, (ValidateError.unknownTask s t).message em =
        "failed to find " ++ s ++ " in " ++ t) :=
  ⟨tokens_trimmed_names_verbatim.2.1 id id jobSpacedName isMapOrder_id (by decide)
      ⟨[], { Name := "A", Command := "cmd", NextTasks := " B" },
        [{ Name := " B", Command := "cmd", NextTasks := "" }], by decide, by decide,
        "B", by decide, by decide⟩,
   tokens_trimmed_names_verbatim.2.1 id id jobCommaName isMapOrder_id (by decide)
      ⟨[], { Name := "A", Command := "cmd", NextTasks := "B,C" },
        [{ Name := "B,C", Command := "cmd", NextTasks := "" }], by decide, by decide,
        "B", by decide, by decide⟩⟩

/-! ## Collapsing duplicate names -/

theorem keepLast_subset : ∀ (tasks : List TaskRequest), keepLast tasks ⊆ tasks := by
  intro tasks
  induction tasks with
  | nil => simp [keepLast]
  | cons t ts ih =>
    unfold keepLast
    split_ifs
    · exact fun x hx => List.mem_cons_of_mem _ (ih hx)
    · intro x hx
      rcases List.mem_cons.mp hx with rfl | hx
      · exact List.mem_cons_self _ _
      · exact List.mem_cons_of_mem _ (ih hx)

theorem keepLast_isLast :
    ∀ (tasks : List TaskRequest) (t : TaskRequest), t ∈ keepLast tasks →
      ∃ pre post, tasks = pre ++ t :: post ∧ ∀ t' ∈ post, t'.Name ≠ t.Name := by
  intro tasks
  induction tasks with
  | nil => intro t h; simp [keepLast] at h
  | cons t0 ts ih =>
    intro t h
    unfold keepLast at h
    split_ifs at h with hany
    · obtain ⟨pre, post, hsplit, hpost⟩ := ih t h
      exact ⟨t0 :: pre, post, by rw [hsplit]; rfl, hpost⟩
    · rcases List.mem_cons.mp h with rfl | h
      · refine ⟨[], ts, rfl, ?_⟩
        intro t' ht' hn
        apply hany
        rw [List.any_eq_true]
        exact ⟨t', ht', by simpa using hn⟩
      · obtain ⟨pre, post, hsplit, hpost⟩ := ih t h
        exact ⟨t0 :: pre, post, by rw [hsplit]; rfl, hpost⟩

theorem keepLast_name_mem :
    ∀ (tasks : List TaskRequest) (t : TaskRequest), t ∈ tasks →
      ∃ t' ∈ keepLast tasks, t'.Name = t.Name := by
  intro tasks
  induction tasks with
  | nil => intro t h; simp at h
  | cons t0 ts ih =>
    intro t h
    have hsub : ∀ x ∈ keepLast ts, x ∈ keepLast (t0 :: ts) := by
      intro x hx
      unfold keepLast
      split_ifs
      · exact hx
      · exact List.mem_cons_of_mem _ hx
    rcases List.mem_cons.mp h with rfl | h
    · by_cases hany : ts.any (fun t' => decide (t'.Name = t.Name)) = true
      · rw [List.any_eq_true] at hany
        obtain ⟨t1, ht1, hn1⟩ := hany
        obtain ⟨t', ht', hn'⟩ := ih t1 ht1
        exact ⟨t', hsub t' ht', hn'.trans (by simpa using hn1)⟩
      · refine ⟨t, ?_, rfl⟩
        unfold keepLast
        rw [if_neg hany]
        exact List.mem_cons_self _ _
    · obtain ⟨t', ht', hn'⟩ := ih t h
      exact ⟨t', hsub t' ht', hn'⟩

theorem keepLast_names_nodup :
    ∀ (tasks : List TaskRequest), ((keepLast tasks).map (fun t => t.Name)).Nodup := by
  intro tasks
  induction tasks with
  | nil => simp [keepLast]
  | cons t0 ts ih =>
    unfold keepLast
    split_ifs with hany
    · exact ih
    · rw [List.map_cons, List.nodup_cons]
      refine ⟨?_, ih⟩
      intro hmem
      obtain ⟨t', ht', hn'⟩ := List.mem_map.mp hmem
      apply hany
      rw [List.any_eq_true]
      exact ⟨t', keepLast_subset ts ht', by simpa using hn'⟩

theorem keepLast_eq_nil_iff (tasks : List TaskRequest) : keepLast tasks = [] ↔ tasks = [] := by
  constructor
  · intro h
    cases tasks with
    | nil => rfl
    | cons t ts =>
      obtain ⟨t', ht', _⟩ := keepLast_name_mem (t :: ts) t (List.mem_cons_self _ _)
      rw [h] at ht'
      simp at ht'
  · intro h
    rw [h]
    rfl

theorem entry_unique {vs : List (String × List String)} (hnd : (vs.map Prod.fst).Nodup)
    {k : String} {v v' : List String} (h : (k, v) ∈ vs) (h' : (k, v') ∈ vs) : v = v' := by
  rw [← adjOf_of_mem hnd h, ← adjOf_of_mem hnd h']

theorem mem_taskVertices_iff_keepLast (tasks : List TaskRequest) (e : String × List String) :
    e ∈ taskVertices tasks ↔ ∃ t ∈ keepLast tasks, e = (t.Name, tokens t.NextTasks) := by
  constructor
  · intro he
    have hkey : e.1 ∈ (taskVertices tasks).map Prod.fst := List.mem_map.mpr ⟨e, he, rfl⟩
    rw [taskVertices_eq, fillMap_mem_keys] at hkey
    rcases hkey with hkey | ⟨t, ht, hn⟩
    · simp at hkey
    · obtain ⟨t', ht', hn'⟩ := keepLast_name_mem tasks t ht
      obtain ⟨pre, post, hsplit, hpost⟩ := keepLast_isLast tasks t' ht'
      have hmem := mem_taskVertices_of_last hsplit hpost
      refine ⟨t', ht', ?_⟩
      have hk : e.1 = t'.Name := by rw [hn', hn]
      have he' : (t'.Name, e.2) ∈ taskVertices tasks := by rw [← hk]; exact he
      have hv := entry_unique (taskVertices_keys_nodup tasks) he' hmem
      exact Prod.ext hk hv
  · rintro ⟨t, ht, rfl⟩
    obtain ⟨pre, post, hsplit, hpost⟩ := keepLast_isLast tasks t ht
    exact mem_taskVertices_of_last hsplit hpost

theorem mem_taskVertices_keepLast (tasks : List TaskRequest) (e : String × List String) :
    e ∈ taskVertices (keepLast tasks) ↔ ∃ t ∈ keepLast tasks, e = (t.Name, tokens t.NextTasks) := by
  constructor
  · intro he
    rcases fillMap_mem _ (keepLast tasks) [] e he with h | ⟨t, ht, hn, hv⟩
    · simp at h
    · exact ⟨t, ht, Prod.ext hn.symm hv⟩
  · rintro ⟨t, ht, rfl⟩
    exact mem_taskVertices_of_nodup (keepLast_names_nodup tasks) ht

/-- The map built from the collapsed task list holds the same entries. -/
theorem taskVertices_keepLast_perm (tasks : List TaskRequest) :
    List.Perm (taskVertices (keepLast tasks)) (taskVertices tasks) := by
  rw [List.perm_ext_iff_of_nodup
    (List.Nodup.of_map Prod.fst (taskVertices_keys_nodup (keepLast tasks)))
    (List.Nodup.of_map Prod.fst (taskVertices_keys_nodup tasks))]
  intro e
  rw [mem_taskVertices_keepLast tasks e, mem_taskVertices_iff_keepLast tasks e]

theorem taskCache_has_keepLast (tasks : List TaskRequest) (s : String) :
    (taskCache (keepLast tasks)).has s = (taskCache tasks).has s := by
  rw [Bool.eq_iff_iff, taskCache_has, taskCache_has]
  constructor
  · rintro ⟨t, ht, hn⟩
    exact ⟨t, keepLast_subset tasks ht, hn⟩
  · rintro ⟨t, ht, hn⟩
    obtain ⟨t', ht', hn'⟩ := keepLast_name_mem tasks t ht
    exact ⟨t', ht', hn'.trans hn⟩

theorem findUnresolved_congr {c c' : GoMap Bool} (h : ∀ s, c.has s = c'.has s) :
    ∀ es : List (String × List String), findUnresolved c es = findUnresolved c' es := by
  intro es
  induction es with
  | nil => rfl
  | cons e rest ih =>
    obtain ⟨tk, ntk⟩ := e
    unfold findUnresolved
    have hf : (fun s => !c.has s) = (fun s => !c'.has s) := by
      funext s
      rw [h s]
    rw [hf, ih]

theorem isMapOrder_orderAs {it : MapOrder} (hit : IsMapOrder it)
    {src dst : GoMap (List String)} (hperm : List.Perm src dst) :
    IsMapOrder (orderAs it src dst) := by
  intro m
  unfold orderAs
  split_ifs with h
  · rw [h]
    exact (hit src).trans hperm
  · exact hit m

/-- When the entries of the two maps hold the same entries and are handed out in the
same orders, the request and its collapsed form get the same result. -/
theorem validate_collapse_eq (it1 it2 it1' it2' : MapOrder) (h2 : IsMapOrder it2)
    (h2' : IsMapOrder it2') (j : JobRequest)
    (ho1 : it1' (taskVertices (keepLast j.Tasks)) = it1 (taskVertices j.Tasks))
    (ho2 : it2' (taskVertices (keepLast j.Tasks)) = it2 (taskVertices j.Tasks)) :
    validate it1' it2' (collapse j) = validate it1 it2 j := by
  unfold validate
  by_cases htrig : j.Schedule = "" ∧ j.RoutePath = ""
  · have htrig' : (collapse j).Schedule = "" ∧ (collapse j).RoutePath = "" := htrig
    rw [if_pos htrig, if_pos htrig']
  · have htrig' : ¬ ((collapse j).Schedule = "" ∧ (collapse j).RoutePath = "") := htrig
    rw [if_neg htrig, if_neg htrig']
    by_cases hlen : j.Tasks.length = 0
    · have hnil : j.Tasks = [] := List.length_eq_zero.mp hlen
      have hlen' : (collapse j).Tasks.length = 0 := by
        show (keepLast j.Tasks).length = 0
        rw [hnil]
        rfl
      rw [if_pos hlen, if_pos hlen']
    · have hne : j.Tasks ≠ [] := fun h0 => hlen (by rw [h0]; rfl)
      have hne' : (collapse j).Tasks ≠ [] := by
        show keepLast j.Tasks ≠ []
        intro h0
        exact hne ((keepLast_eq_nil_iff j.Tasks).mp h0)
      have hlen' : ¬ (collapse j).Tasks.length = 0 := fun h0 => hne' (List.length_eq_zero.mp h0)
      rw [if_neg hlen, if_neg hlen']
      have hfu : findUnresolved (taskCache (collapse j).Tasks)
            (it1' (taskVertices (collapse j).Tasks)) =
          findUnresolved (taskCache j.Tasks) (it1 (taskVertices j.Tasks)) := by
        show findUnresolved (taskCache (keepLast j.Tasks))
            (it1' (taskVertices (keepLast j.Tasks))) = _
        rw [ho1]
        exact findUnresolved_congr (taskCache_has_keepLast j.Tasks) _
      cases hcase : findUnresolved (taskCache j.Tasks) (it1 (taskVertices j.Tasks)) with
      | some r =>
        obtain ⟨s, tk⟩ := r
        rw [check_of_unresolved it1 it2 j hcase,
          check_of_unresolved it1' it2' (collapse j) (hfu.trans hcase)]
      | none =>
        rw [check_eq_of_resolved it1 it2 h2 j hne hcase,
          check_eq_of_resolved it1' it2' h2' (collapse j) hne' (hfu.trans hcase)]
        have hv : (graphOf it2' (collapse j)).vertices = (graphOf it2 j).vertices := ho2
        have hrun : (graphOf it2' (collapse j)).run = (graphOf it2 j).run := by
          unfold DAG.run
          rw [hv]
        rw [hrun]

/-- The kind of the result of `validate` does not depend on the iteration orders. -/
theorem validate_kind_indep (it1 it2 it1' it2' : MapOrder)
    (h1 : IsMapOrder it1) (h2 : IsMapOrder it2) (h1' : IsMapOrder it1')
    (h2' : IsMapOrder it2') (j : JobRequest) :
    (validate it1 it2 j).kind = (validate it1' it2' j).kind := by
  unfold validate
  by_cases htrig : j.Schedule = "" ∧ j.RoutePath = ""
  · rw [if_pos htrig, if_pos htrig]
  · by_cases hlen : j.Tasks.length = 0
    · rw [if_neg htrig, if_neg htrig, if_pos hlen, if_pos hlen]
    · have hne : j.Tasks ≠ [] := fun h => hlen (by rw [h]; rfl)
      rw [if_neg htrig, if_neg htrig, if_neg hlen, if_neg hlen]
      exact check_kind it1 it2 it1' it2' h1 h2 h1' h2' j hne

/-- C16 (duplicate names collapse to the last occurrence): the map built from a request
holds the same entries as the map built from the request that keeps, for each task
name, only the last task of that name; so the two requests have the same possible
results of `validate`: every result of one, for some orders of iterating the map, is a
result of the other for suitable orders (the same entries handed out in the same
orders), and for all orders the two results are of the same kind. -/
theorem duplicates_collapse_to_last (j : JobRequest) :
    List.Perm (taskVertices (collapse j).Tasks) (taskVertices j.Tasks) ∧
    (∀ it1 it2 : MapOrder, IsMapOrder it1 → IsMapOrder it2 →
      ∃ it1' it2' : MapOrder, IsMapOrder it1' ∧ IsMapOrder it2' ∧
        validate it1' it2' (collapse j) = validate it1 it2 j) ∧
    (∀ it1' it2' : MapOrder, IsMapOrder it1' → IsMapOrder it2' →
      ∃ it1 it2 : MapOrder, IsMapOrder it1 ∧ IsMapOrder it2 ∧
        validate it1 it2 j = validate it1' it2' (collapse j)) ∧
    (∀ it1 it2 it1' it2' : MapOrder, IsMapOrder it1 → IsMapOrder it2 →
      IsMapOrder it1' → IsMapOrder it2' →
      (validate it1 it2 j).kind = (validate it1' it2' (collapse j)).kind) := by
  have hperm : List.Perm (taskVertices (keepLast j.Tasks)) (taskVertices j.Tasks) :=
    taskVertices_keepLast_perm j.Tasks
  have hfwd : ∀ it1 it2 : MapOrder, IsMapOrder it1 → IsMapOrder it2 →
      ∃ it1' it2' : MapOrder, IsMapOrder it1' ∧ IsMapOrder it2' ∧
        validate it1' it2' (collapse j) = validate it1 it2 j := by
    intro it1 it2 h1 h2
    have ho : ∀ it : MapOrder,
        orderAs it (taskVertices j.Tasks) (taskVertices (keepLast j.Tasks))
          (taskVertices (keepLast j.Tasks)) = it (taskVertices j.Tasks) := by
      intro it
      unfold orderAs
      rw [if_pos rfl]
    refine ⟨orderAs it1 (taskVertices j.Tasks) (taskVertices (keepLast j.Tasks)),
      orderAs it2 (taskVertices j.Tasks) (taskVertices (keepLast j.Tasks)),
      isMapOrder_orderAs h1 hperm.symm, isMapOrder_orderAs h2 hperm.symm, ?_⟩
    exact validate_collapse_eq it1 it2 _ _ h2 (isMapOrder_orderAs h2 hperm.symm) j
      (ho it1) (ho it2)
  refine ⟨hperm, hfwd, ?_, ?_⟩
  · intro it1' it2' h1' h2'
    have ho : ∀ it : MapOrder,
        it (taskVertices (keepLast j.Tasks)) =
          orderAs it (taskVertices (keepLast j.Tasks)) (taskVertices j.Tasks)
            (taskVertices j.Tasks) := by
      intro it
      unfold orderAs
      rw [if_pos rfl]
    refine ⟨orderAs it1' (taskVertices (keepLast j.Tasks)) (taskVertices j.Tasks),
      orderAs it2' (taskVertices (keepLast j.Tasks)) (taskVertices j.Tasks),
      isMapOrder_orderAs h1' hperm, isMapOrder_orderAs h2' hperm, ?_⟩
    exact (validate_collapse_eq _ _ it1' it2' (isMapOrder_orderAs h2' hperm) h2' j
      (ho it1') (ho it2')).symm
  · intro it1 it2 it1' it2' h1 h2 h1' h2'
    obtain ⟨a, b, ha, hb, hab⟩ := hfwd it1 it2 h1 h2
    rw [← hab]
    exact validate_kind_indep a b it1' it2' ha hb h1' h2' (collapse j)

theorem duplicates_collapse_to_last_witness :
    (∃ it1' it2' : MapOrder, IsMapOrder it1' ∧ IsMapOrder it2' ∧
      validate it1' it2' (collapse jobDupCycle) = validate id id jobDupCycle) ∧
    (validate id id jobDupCycle).kind =
      (validate List.reverse id (collapse jobDupCycle)).kind :=
  ⟨(duplicates_collapse_to_last jobDupCycle).2.1 id id isMapOrder_id isMapOrder_id,
   (duplicates_collapse_to_last jobDupCycle).2.2.2 id id List.reverse id
      isMapOrder_id isMapOrder_id isMapOrder_reverse isMapOrder_id⟩

end OfficerK
